import Mathlib

/-!
Verification of the response-mocking pipeline of the `sucktorial` Firefox
extension (`src/mocker_firefox_extension/background.js`).

The embedding models:
* JSON values (`Json`) as produced by `JSON.parse`: numbers are modelled as
  integers (the endpoints under study carry ids and flags; float formatting is
  outside the model) and strings as sequences of Unicode scalar values.
* `JSON.stringify` (`stringifyL`) and `JSON.parse` (`jsonParseL`), the latter as
  a fuel-based recursive-descent parser following the JSON grammar, with the
  duplicate-key/last-wins object semantics of JavaScript.
* the WHATWG incremental UTF-8 decoder used by `TextDecoder("utf-8")` with
  `stream: true` (`decodeLoop`), and the UTF-8 encoder of `TextEncoder`.
* the two transform functions `mock_companies` and `mock_authorize_policies`,
  including the JavaScript `TypeError` raised when an array element is `null`
  (property access on `null` throws); property assignment on a primitive is a
  sloppy-mode no-op and a non-index property added to an array is invisible to
  `JSON.stringify`, so both are modelled as leaving the JSON value unchanged.
* the dispatcher `handle_mocking` and the interception entry point `mocker`,
  including the `filter.disconnect()` semantics of the StreamFilter API: after
  the first `ondata` event is processed and the filter disconnects, any
  remaining chunks of the response flow to the page unmodified.
-/

/-- JSON values as produced by `JSON.parse`.  Object fields are kept in
insertion order, as JavaScript objects do. -/
inductive Json where
  | null : Json
  | bool (b : Bool) : Json
  | int (n : Int) : Json
  | str (s : String) : Json
  | arr (elems : List Json) : Json
  | obj (fields : List (String × Json)) : Json

/-- JavaScript truthiness of a JSON value (`null`, `false`, `0` and `""` are
falsy; every object and array is truthy). -/
def truthy : Json → Bool
  | .null => false
  | .bool b => b
  | .int n => n != 0
  | .str s => s != ""
  | .arr _ => true
  | .obj _ => true

/-- Truthiness of a possibly-`undefined` value (`undefined` is falsy). -/
def truthyO : Option Json → Bool
  | none => false
  | some v => truthy v

/-- Field lookup in an object's field list (keys are unique in parsed JSON, so
first match suffices). -/
def lookupField : List (String × Json) → String → Option Json
  | [], _ => none
  | (k, v) :: fs, key => if k = key then some v else lookupField fs key

/-- JavaScript property read on a JSON value: `none` models `undefined`.
Reading a property of a primitive, or a named property of an array, yields
`undefined`; callers guard the `null` case (where access would throw). -/
def propGet : Json → String → Option Json
  | .obj fs, key => lookupField fs key
  | _, _ => none

/-- JavaScript property assignment on an object's field list: overwrite in
place if the key exists, else append (insertion order). -/
def setField : List (String × Json) → String → Json → List (String × Json)
  | [], key, v => [(key, v)]
  | (k, w) :: fs, key, v =>
      if k = key then (k, v) :: fs else (k, w) :: setField fs key v

/-- JavaScript property assignment on a JSON value.  On a non-object this is
the identity: assigning to a property of a primitive is a silent no-op in
sloppy mode, and a named property added to an array does not appear in its
JSON serialization. -/
def Json.set (j : Json) (key : String) (v : Json) : Json :=
  match j with
  | .obj fs => .obj (setField fs key v)
  | _ => j

/-- Update the value at a key of an object's field list, if present. -/
def updateField (fs : List (String × Json)) (key : String) (f : Json → Json) :
    List (String × Json) :=
  match fs with
  | [] => []
  | (k, w) :: fs => if k = key then (k, f w) :: fs else (k, w) :: updateField fs key f

/-- Update a property of a JSON value in place, if the value is an object with
that key; otherwise the identity. -/
def updF (j : Json) (key : String) (f : Json → Json) : Json :=
  match j with
  | .obj fs => .obj (updateField fs key f)
  | _ => j

/-- Remove a key from an object's field list. -/
def delField : List (String × Json) → String → List (String × Json)
  | [], _ => []
  | (k, w) :: fs, key => if k = key then fs else (k, w) :: delField fs key

/-- Remove a property from a JSON value (identity on non-objects). -/
def delKey (j : Json) (key : String) : Json :=
  match j with
  | .obj fs => .obj (delField fs key)
  | _ => j

/-- `company.permissions?.attendance`-style optional-chain read: the chain
yields `undefined` when `permissions` is absent or `null`, and otherwise reads
the inner property. -/
def optChain (j : Json) (outer inner : String) : Option Json :=
  match propGet j outer with
  | none => none
  | some p => match p with
      | .null => none
      | _ => propGet p inner

/-- The URLs the extension mocks or observes (`INTERESTING_URLS` in
`background.js`; the list is declared in the source but only the dispatch
switch in `handle_mocking` consumes the two mocked entries). -/
def INTERESTING_URLS : List String :=
  ["https://api.factorialhr.com/companies",
   "https://api.factorialhr.com/permissions/permissions/authorize_policies",
   "https://api.factorialhr.com/posts/groups"]

/-- The URLs the extension never inspects (`NOT_INTERESTING_URLS`). -/
def NOT_INTERESTING_URLS : List String :=
  ["https://api.factorialhr.com/ats/companies",
   "https://api.factorialhr.com/teams",
   "https://api.factorialhr.com/company_holidays",
   "https://api.factorialhr.com/memberships",
   "https://api.factorialhr.com/visits",
   "https://api.factorialhr.com/accesses/become",
   "https://api.factorialhr.com/api/rest/marketplace/user_installation",
   "https://api.factorialhr.com/job_catalog/salary_ranges",
   "https://api.factorialhr.com/job_catalog/roles",
   "https://api.factorialhr.com/job_catalog/levels",
   "https://api.factorialhr.com/genders",
   "https://api.factorialhr.com/legal_genders",
   "https://api.factorialhr.com/legal_entities",
   "https://api.factorialhr.com/locations",
   "https://api.factorialhr.com/billing/subscriptions",
   "https://api.factorialhr.com/policies"]

/-- The policy keys force-authorized by `mock_authorize_policies`
(`MOCK_POLICIES` in `background.js`). -/
def MOCK_POLICIES : List String :=
  ["contracts.create_additional_compensation_type",
   "contracts.delete_contracts",
   "contracts.edit",
   "contracts.promote",
   "contracts.read",
   "contracts.see_end_date",
   "employee.create",
   "employee.invite",
   "employee.become",
   "employee_profile.company_identifier.edit",
   "employee_profile.company_identifier.see",
   "finance.cost_center_memberships.see",
   "goals.read",
   "leaves.download",
   "payroll.manage_payroll",
   "planning_versions.edit",
   "planning_versions.read",
   "shift_management.create_shifts",
   "teams.manage"]

/-- Diagnostic records emitted via `console.log`.  The default branch of
`handle_mocking` logs the address and the body as one diagnostic record. -/
inductive LogEv where
  | companiesOriginal (v : Json) : LogEv
  | companiesMocked (v : Json) : LogEv
  | policyLine (p : Json) (mocked : Bool) : LogEv
  | noMocker (url : String) (v : Json) : LogEv

/-- The in-place mutation `company.permissions.attendance.approve = true`. -/
def mutAtt (c : Json) : Json :=
  updF c "permissions" (fun p => updF p "attendance"
    (fun att => att.set "approve" (Json.bool true)))

/-- The in-place mutation `company.permissions.payroll.edit_supplements = true`. -/
def mutPay (c : Json) : Json :=
  updF c "permissions" (fun p => updF p "payroll"
    (fun pr => pr.set "edit_supplements" (Json.bool true)))

/-- One iteration of the `mock_companies` loop body on one company.  Returns
the (possibly mutated) company and whether the iteration threw a `TypeError`
(reading `.permissions` of a `null` element throws). -/
def mockCompany (c : Json) : Json × Bool :=
  match c with
  | .null => (c, true)
  | _ =>
    let c1 :=
      match optChain c "permissions" "attendance" with
      | some a => if truthy a then mutAtt c else c
      | none => c
    let c2 :=
      match optChain c1 "permissions" "payroll" with
      | some pay => if truthy pay then mutPay c1 else c1
      | none => c1
    (c2, false)

/-- The `for (const company of response)` loop of `mock_companies`: a thrown
`TypeError` aborts the loop, leaving later elements untouched. -/
def mockCompanyLoop : List Json → List Json × Bool
  | [] => ([], false)
  | c :: cs =>
      let r := mockCompany c
      if r.2 then (r.1 :: cs, true)
      else
        let rs := mockCompanyLoop cs
        (r.1 :: rs.1, rs.2)

/-- `mock_companies` from `background.js`: logs the response, mutates each
company's `permissions.attendance.approve` and
`permissions.payroll.edit_supplements` flags to `true` when the nested objects
are present and truthy, then logs the mutated response.  Returns the mutated
value, whether a `TypeError` escaped, and the `console.log` records (the final
log is skipped when the loop throws). -/
def mock_companies (v : Json) : Json × Bool × List LogEv :=
  let body : Json × Bool :=
    match v with
    | .arr es =>
        if es.length > 0 then
          let r := mockCompanyLoop es
          (Json.arr r.1, r.2)
        else (v, false)
    | _ => (v, false)
  if body.2 then (body.1, true, [.companiesOriginal v])
  else (body.1, false, [.companiesOriginal v, .companiesMocked body.1])

/-- The test `MOCK_POLICIES.includes(policy.policy_key)`: `includes` compares
with strict equality, so only a string `policy_key` can match. -/
def keyMatchB (p : Json) : Bool :=
  match propGet p "policy_key" with
  | some (.str s) => MOCK_POLICIES.contains s
  | _ => false

/-- One iteration of the `mock_authorize_policies` loop body: force
`policy.authorize` to `true` when the policy key is in `MOCK_POLICIES` and the
flag is falsy.  Returns the policy, whether it was mocked this pass, and
whether the iteration threw (`policy.policy_key` on `null` throws). -/
def mockPolicy (p : Json) : Json × Bool × Bool :=
  match p with
  | .null => (p, false, true)
  | _ =>
    if keyMatchB p then
      if truthyO (propGet p "authorize") then (p, false, false)
      else (p.set "authorize" (Json.bool true), true, false)
    else (p, false, false)

/-- The loop of `mock_authorize_policies`; each non-throwing iteration logs one
line, and a throw aborts the loop before that element's log. -/
def mockPolicyLoop : List Json → List Json × List LogEv × Bool
  | [] => ([], [], false)
  | p :: ps =>
      let r := mockPolicy p
      if r.2.2 then (r.1 :: ps, [], true)
      else
        let rs := mockPolicyLoop ps
        (r.1 :: rs.1, .policyLine r.1 r.2.1 :: rs.2.1, rs.2.2)

/-- `mock_authorize_policies` from `background.js`. -/
def mock_authorize_policies (v : Json) : Json × Bool × List LogEv :=
  match v with
  | .arr es =>
      if es.length > 0 then
        let r := mockPolicyLoop es
        (Json.arr r.1, r.2.2, r.2.1)
      else (v, false, [])
  | _ => (v, false, [])

/-- Result of dispatching a parsed body: the (possibly mutated) value, whether
a transform threw, the diagnostic records, and whether a transform was
invoked at all. -/
structure DispatchOut where
  value : Json
  thrown : Bool
  logs : List LogEv
  invoked : Bool

/-- `handle_mocking` from `background.js`: dispatch on the exact URL string;
the default branch logs the address and the body and leaves the value
untouched. -/
def handle_mocking (url : String) (v : Json) : DispatchOut :=
  if url = "https://api.factorialhr.com/companies" then
    let r := mock_companies v
    ⟨r.1, r.2.1, r.2.2, true⟩
  else if url = "https://api.factorialhr.com/permissions/permissions/authorize_policies" then
    let r := mock_authorize_policies v
    ⟨r.1, r.2.1, r.2.2, true⟩
  else
    ⟨v, false, [.noMocker url v], false⟩

/-- Lowercase hexadecimal digit, as used by `JSON.stringify` escapes. -/
def hexDigit (n : Nat) : Char :=
  if n < 10 then Char.ofNat (48 + n) else Char.ofNat (87 + n)

/-- Decimal digit character. -/
def digitChar (n : Nat) : Char := Char.ofNat (48 + n)

/-- `JSON.stringify` escaping of one string character: quote and backslash are
escaped, control characters use the named escapes or a `u00..` escape, all
other scalar values are emitted raw. -/
def escapeChar (c : Char) : List Char :=
  if c = '"' then ['\\', '"']
  else if c = '\\' then ['\\', '\\']
  else if c.toNat = 8 then ['\\', 'b']
  else if c.toNat = 9 then ['\\', 't']
  else if c.toNat = 10 then ['\\', 'n']
  else if c.toNat = 12 then ['\\', 'f']
  else if c.toNat = 13 then ['\\', 'r']
  else if c.toNat < 32 then
    ['\\', 'u', '0', '0', hexDigit (c.toNat / 16), hexDigit (c.toNat % 16)]
  else [c]

/-- Escape a whole string body. -/
def escapeList : List Char → List Char
  | [] => []
  | c :: cs => escapeChar c ++ escapeList cs

/-- Decimal digits, fuel-based so that the kernel can evaluate it; the fuel
always dominates the number of digits. -/
def natStrAux : Nat → Nat → List Char
  | 0, _ => []
  | fuel + 1, n =>
      if n < 10 then [digitChar n]
      else natStrAux fuel (n / 10) ++ [digitChar (n % 10)]

/-- Decimal digits of a natural number, most significant first. -/
def natStr (n : Nat) : List Char := natStrAux (n + 1) n

/-- Decimal notation of an integer, as `JSON.stringify` prints it. -/
def intStr (n : Int) : List Char :=
  if n < 0 then '-' :: natStr n.natAbs else natStr n.natAbs

mutual

/-- `JSON.stringify` with no spacing argument: no whitespace is emitted, object
fields keep insertion order. -/
def stringifyL : Json → List Char
  | .null => "null".data
  | .bool true => "true".data
  | .bool false => "false".data
  | .int n => intStr n
  | .str s => '"' :: (escapeList s.data ++ ['"'])
  | .arr [] => ['[', ']']
  | .arr (v :: vs) => '[' :: (stringifyL v ++ elemsStr vs ++ [']'])
  | .obj [] => ['{', '}']
  | .obj ((k, v) :: fs) =>
      '{' :: ('"' :: (escapeList k.data ++ '"' :: ':' :: stringifyL v) ++ fieldsStr fs ++ ['}'])

/-- Serialization of the remaining array elements, each preceded by a comma. -/
def elemsStr : List Json → List Char
  | [] => []
  | v :: vs => ',' :: (stringifyL v ++ elemsStr vs)

/-- Serialization of the remaining object fields, each preceded by a comma. -/
def fieldsStr : List (String × Json) → List Char
  | [] => []
  | (k, v) :: fs => ',' :: ('"' :: (escapeList k.data ++ '"' :: ':' :: stringifyL v) ++ fieldsStr fs)

end

/-- `JSON.stringify` as a string. -/
def jsonStringify (v : Json) : String := String.mk (stringifyL v)

mutual

/-- Well-formedness of a JSON value as produced by `JSON.parse`: object keys
are pairwise distinct at every level. -/
def wfJ : Json → Bool
  | .null => true
  | .bool _ => true
  | .int _ => true
  | .str _ => true
  | .arr es => wfElems es
  | .obj fs => wfFields fs

/-- Well-formedness of array elements. -/
def wfElems : List Json → Bool
  | [] => true
  | v :: vs => wfJ v && wfElems vs

/-- Well-formedness of object fields: the key is absent from the remaining
fields, and all values are well formed. -/
def wfFields : List (String × Json) → Bool
  | [] => true
  | (k, v) :: fs => (lookupField fs k).isNone && wfJ v && wfFields fs

end

/-- JSON whitespace (the four characters the grammar allows). -/
def isWsC (c : Char) : Bool :=
  c = ' ' || c = '\t' || c = '\n' || c = '\r'

/-- Skip leading JSON whitespace. -/
def skipWs : List Char → List Char
  | [] => []
  | c :: cs => if isWsC c then skipWs cs else c :: cs

/-- ASCII decimal digit test. -/
def isDigitC (c : Char) : Bool := 48 ≤ c.toNat && c.toNat ≤ 57

/-- Value of a hexadecimal digit character. -/
def hexVal (c : Char) : Option Nat :=
  if 48 ≤ c.toNat ∧ c.toNat ≤ 57 then some (c.toNat - 48)
  else if 97 ≤ c.toNat ∧ c.toNat ≤ 102 then some (c.toNat - 87)
  else if 65 ≤ c.toNat ∧ c.toNat ≤ 70 then some (c.toNat - 55)
  else none

/-- Numeric value of a list of decimal digit characters. -/
def digitsToNat (ds : List Char) : Nat :=
  ds.foldl (fun a c => a * 10 + (c.toNat - 48)) 0

/-- Parse a JSON number.  The model is restricted to integers: a fraction or
exponent part makes the parse fail (the bodies under study carry only integer
ids and flags).  The JSON grammar's leading-zero restriction is enforced. -/
def parseNumber (cs : List Char) : Option (Json × List Char) :=
  let neg : Bool := match cs with | c :: _ => c == '-' | [] => false
  let cs1 := if neg then cs.tail else cs
  match cs1 with
  | [] => none
  | d :: _ =>
    if isDigitC d then
      let ds := cs1.takeWhile isDigitC
      let rest := cs1.dropWhile isDigitC
      if 1 < ds.length ∧ ds.head? = some '0' then none
      else if rest.head? = some '.' ∨ rest.head? = some 'e' ∨ rest.head? = some 'E' then
        none
      else
        let v : Int := Int.ofNat (digitsToNat ds)
        some (.int (if neg then -v else v), rest)
    else none

/-- Parse a JSON string body (after the opening quote), returning the decoded
characters and the input after the closing quote.  Surrogate escapes are
rejected (the model's strings are sequences of scalar values).  The fuel
bounds the number of decoded characters. -/
def parseStrBody (fuel : Nat) (cs : List Char) : Option (List Char × List Char) :=
  match fuel with
  | 0 => none
  | fuel + 1 =>
    match cs with
    | [] => none
    | c :: cs1 =>
      if c = '"' then some ([], cs1)
      else if c = '\\' then
        match cs1 with
        | [] => none
        | e :: cs2 =>
          if e = '"' then (parseStrBody fuel cs2).map (fun pr => ('"' :: pr.1, pr.2))
          else if e = '\\' then (parseStrBody fuel cs2).map (fun pr => ('\\' :: pr.1, pr.2))
          else if e = '/' then (parseStrBody fuel cs2).map (fun pr => ('/' :: pr.1, pr.2))
          else if e = 'b' then (parseStrBody fuel cs2).map (fun pr => (Char.ofNat 8 :: pr.1, pr.2))
          else if e = 'f' then (parseStrBody fuel cs2).map (fun pr => (Char.ofNat 12 :: pr.1, pr.2))
          else if e = 'n' then (parseStrBody fuel cs2).map (fun pr => ('\n' :: pr.1, pr.2))
          else if e = 'r' then (parseStrBody fuel cs2).map (fun pr => (Char.ofNat 13 :: pr.1, pr.2))
          else if e = 't' then (parseStrBody fuel cs2).map (fun pr => ('\t' :: pr.1, pr.2))
          else if e = 'u' then
            match cs2 with
            | h1 :: h2 :: h3 :: h4 :: cs3 =>
              match hexVal h1, hexVal h2, hexVal h3, hexVal h4 with
              | some a, some b, some c2, some d =>
                  let n := ((a * 16 + b) * 16 + c2) * 16 + d
                  if 0xD800 ≤ n ∧ n ≤ 0xDFFF then none
                  else (parseStrBody fuel cs3).map (fun pr => (Char.ofNat n :: pr.1, pr.2))
              | _, _, _, _ => none
            | _ => none
          else none
      else if c.toNat < 32 then none
      else (parseStrBody fuel cs1).map (fun pr => (c :: pr.1, pr.2))

/-- Build a JavaScript object from parsed key/value pairs: a duplicate key
keeps its first position and takes its last value. -/
def objOfPairs (ps : List (String × Json)) : List (String × Json) :=
  ps.foldl (fun acc kv => setField acc kv.1 kv.2) []

mutual

/-- Recursive-descent parser for a JSON value, mirroring `JSON.parse` (with
integer numbers).  The fuel dominates the input length. -/
def parseV (fuel : Nat) (cs : List Char) : Option (Json × List Char) :=
  match fuel with
  | 0 => none
  | fuel + 1 =>
    match skipWs cs with
    | [] => none
    | c :: cs1 =>
      if c = 'n' then
        match cs1 with
        | 'u' :: 'l' :: 'l' :: r => some (.null, r)
        | _ => none
      else if c = 't' then
        match cs1 with
        | 'r' :: 'u' :: 'e' :: r => some (.bool true, r)
        | _ => none
      else if c = 'f' then
        match cs1 with
        | 'a' :: 'l' :: 's' :: 'e' :: r => some (.bool false, r)
        | _ => none
      else if c = '"' then
        (parseStrBody fuel cs1).map (fun pr => (.str (String.mk pr.1), pr.2))
      else if c = '[' then
        match skipWs cs1 with
        | ']' :: r => some (.arr [], r)
        | cs2 => (parseElems fuel cs2).map (fun pr => (.arr pr.1, pr.2))
      else if c = '{' then
        match skipWs cs1 with
        | '}' :: r => some (.obj [], r)
        | cs2 => (parseFields fuel cs2).map (fun pr => (.obj (objOfPairs pr.1), pr.2))
      else parseNumber (c :: cs1)

/-- Parse one or more comma-separated array elements up to the closing
bracket. -/
def parseElems (fuel : Nat) (cs : List Char) : Option (List Json × List Char) :=
  match fuel with
  | 0 => none
  | fuel + 1 =>
    (parseV fuel cs).bind (fun pr =>
      match skipWs pr.2 with
      | ',' :: r => (parseElems fuel r).map (fun qr => (pr.1 :: qr.1, qr.2))
      | ']' :: r => some ([pr.1], r)
      | _ => none)

/-- Parse one or more comma-separated object fields up to the closing brace. -/
def parseFields (fuel : Nat) (cs : List Char) : Option (List (String × Json) × List Char) :=
  match fuel with
  | 0 => none
  | fuel + 1 =>
    match skipWs cs with
    | '"' :: r =>
      (parseStrBody fuel r).bind (fun kr =>
        match skipWs kr.2 with
        | ':' :: r2 =>
          (parseV fuel r2).bind (fun vr =>
            match skipWs vr.2 with
            | ',' :: r3 => (parseFields fuel r3).map
                (fun fr => ((String.mk kr.1, vr.1) :: fr.1, fr.2))
            | '}' :: r3 => some ([(String.mk kr.1, vr.1)], r3)
            | _ => none)
        | _ => none)
    | _ => none

end

/-- `JSON.parse` on a character list: parse one value and require only
whitespace to remain. -/
def jsonParseL (cs : List Char) : Option Json :=
  match parseV (cs.length + 1) cs with
  | some (v, rest) => if skipWs rest = [] then some v else none
  | none => none

/-- `JSON.parse` on a string. -/
def jsonParse (s : String) : Option Json := jsonParseL s.data

/-- UTF-8 encoding of one scalar value (`TextEncoder`). -/
def encodeChar (c : Char) : List Nat :=
  let n := c.toNat
  if n < 0x80 then [n]
  else if n < 0x800 then [0xC0 + n / 64, 0x80 + n % 64]
  else if n < 0x10000 then
    [0xE0 + n / 4096, 0x80 + (n / 64) % 64, 0x80 + n % 64]
  else
    [0xF0 + n / 262144, 0x80 + (n / 4096) % 64, 0x80 + (n / 64) % 64, 0x80 + n % 64]

/-- UTF-8 encoding of a character sequence. -/
def utf8Encode : List Char → List Nat
  | [] => []
  | c :: cs => encodeChar c ++ utf8Encode cs

/-- State of the WHATWG incremental UTF-8 decoder. -/
structure DecSt where
  codepoint : Nat
  seen : Nat
  needed : Nat
  lower : Nat
  upper : Nat

/-- Initial decoder state. -/
def DecSt.init : DecSt := ⟨0, 0, 0, 0x80, 0xBF⟩

/-- The replacement character U+FFFD. -/
def replChar : Char := Char.ofNat 0xFFFD

/-- WHATWG UTF-8 decoder: handle one byte in the initial state (no sequence in
progress). -/
def decStart (b : Nat) : List Char × DecSt :=
  if b ≤ 0x7F then ([Char.ofNat b], .init)
  else if 0xC2 ≤ b ∧ b ≤ 0xDF then ([], ⟨b % 32, 0, 1, 0x80, 0xBF⟩)
  else if 0xE0 ≤ b ∧ b ≤ 0xEF then
    ([], ⟨b % 16, 0, 2, if b = 0xE0 then 0xA0 else 0x80, if b = 0xED then 0x9F else 0xBF⟩)
  else if 0xF0 ≤ b ∧ b ≤ 0xF4 then
    ([], ⟨b % 8, 0, 3, if b = 0xF0 then 0x90 else 0x80, if b = 0xF4 then 0x8F else 0xBF⟩)
  else ([replChar], .init)

/-- WHATWG UTF-8 decoder: handle one byte in an arbitrary state.  A byte
outside the continuation boundaries emits U+FFFD and is reprocessed from the
initial state. -/
def decStep (st : DecSt) (b : Nat) : List Char × DecSt :=
  if st.needed = 0 then decStart b
  else if st.lower ≤ b ∧ b ≤ st.upper then
    let cp := st.codepoint * 64 + b % 64
    let seen := st.seen + 1
    if seen = st.needed then ([Char.ofNat cp], .init)
    else ([], ⟨cp, seen, st.needed, 0x80, 0xBF⟩)
  else
    let r := decStart b
    (replChar :: r.1, r.2)

/-- Run the decoder over a byte list from a given state, returning the decoded
characters.  With `stream: true` a trailing incomplete sequence stays pending
in the decoder state; it is dropped when the session disconnects, so it is not
part of the decoded text. -/
def decodeLoop (st : DecSt) : List Nat → List Char
  | [] => []
  | b :: bs =>
      let r := decStep st b
      r.1 ++ decodeLoop r.2 bs

/-- `decoder.decode(chunk, { stream: true })` from the initial state. -/
def utf8DecodeStream (bs : List Nat) : List Char := decodeLoop .init bs

/-- Observable outcome of `mocker` for one request: the bytes the page
receives, the diagnostic records, whether a stream filter was opened, and
instrumentation counters for the decode, parse and transform steps. -/
structure MockerOut where
  bytes : List Nat
  logs : List LogEv
  streamOpened : Bool
  decodeCalls : Nat
  parseCalls : Nat
  transformCalls : Nat

/-- `mocker` from `background.js`, applied to the chunk sequence of one
response.  A URL in `NOT_INTERESTING_URLS` is never intercepted: no filter is
opened and the bytes flow through untouched.  Otherwise the first `ondata`
event decodes its chunk with `stream: true`, attempts `JSON.parse`, on success
dispatches `handle_mocking` and writes the re-serialized value (or, when the
transform throws, the catch block writes the decoded text), on failure writes
the decoded text, and then disconnects the filter — so every later chunk
reaches the page as raw bytes, bypassing the filter. -/
def mocker (url : String) (chunks : List (List Nat)) : MockerOut :=
  if NOT_INTERESTING_URLS.contains url then
    ⟨chunks.flatten, [], false, 0, 0, 0⟩
  else
    match chunks with
    | [] => ⟨[], [], true, 0, 0, 0⟩
    | c :: rest =>
      let s := utf8DecodeStream c
      match jsonParseL s with
      | some v =>
          let d := handle_mocking url v
          let tc := if d.invoked then 1 else 0
          if d.thrown then
            ⟨utf8Encode s ++ rest.flatten, d.logs, true, 1, 1, tc⟩
          else
            ⟨utf8Encode (stringifyL d.value) ++ rest.flatten, d.logs, true, 1, 1, tc⟩
      | none => ⟨utf8Encode s ++ rest.flatten, [], true, 1, 1, 0⟩

/-- Erase the field targeted by `mutAtt` (the `approve` flag inside
`permissions.attendance`) from one company. -/
def eraseAtt (c : Json) : Json :=
  updF c "permissions" (fun p => updF p "attendance" (fun a => delKey a "approve"))

/-- Erase the field targeted by `mutPay` (the `edit_supplements` flag inside
`permissions.payroll`) from one company. -/
def erasePay (c : Json) : Json :=
  updF c "permissions" (fun p => updF p "payroll" (fun a => delKey a "edit_supplements"))

/-- Erase both fields targeted by `mock_companies` from one company. -/
def eraseCompanyElem (c : Json) : Json := erasePay (eraseAtt c)

/-- Erase the fields targeted by `mock_companies` from a whole body. -/
def eraseCompanies (v : Json) : Json :=
  match v with
  | .arr es => .arr (es.map eraseCompanyElem)
  | _ => v

/-- Erase the field targeted by `mock_authorize_policies` (the `authorize`
flag of a policy whose key is in `MOCK_POLICIES`) from one policy. -/
def erasePolicyElem (p : Json) : Json :=
  if keyMatchB p then delKey p "authorize" else p

/-- Erase the fields targeted by `mock_authorize_policies` from a whole
body. -/
def erasePolicies (v : Json) : Json :=
  match v with
  | .arr es => .arr (es.map erasePolicyElem)
  | _ => v

/-- Per-element override contract of `mock_companies`: whenever a targeted
flag is present in the input element, it equals `true` in the output
element. -/
def compOK (c c' : Json) : Prop :=
  (∀ a w, optChain c "permissions" "attendance" = some a →
      propGet a "approve" = some w →
      ∃ a', optChain c' "permissions" "attendance" = some a' ∧
        propGet a' "approve" = some (Json.bool true)) ∧
  (∀ a w, optChain c "permissions" "payroll" = some a →
      propGet a "edit_supplements" = some w →
      ∃ a', optChain c' "permissions" "payroll" = some a' ∧
        propGet a' "edit_supplements" = some (Json.bool true))

/-- The override contract of `mock_companies` over a whole body (elementwise
over an array; a non-array has no targeted fields). -/
def compTargeted (v v' : Json) : Prop :=
  match v, v' with
  | .arr es, .arr es' => List.Forall₂ compOK es es'
  | _, _ => True

/-- Per-element override contract of `mock_authorize_policies`: a present
`authorize` flag of a matching policy is forced to `true` when it was falsy
and kept unchanged when it was already truthy. -/
def polOK (p p' : Json) : Prop :=
  ∀ s w, propGet p "policy_key" = some (.str s) → s ∈ MOCK_POLICIES →
    propGet p "authorize" = some w →
    propGet p' "authorize" = some (if truthy w then w else Json.bool true)

/-- The override contract of `mock_authorize_policies` over a whole body. -/
def polTargeted (v v' : Json) : Prop :=
  match v, v' with
  | .arr es, .arr es' => List.Forall₂ polOK es es'
  | _, _ => True

mutual

/-- Fuel sufficient for `parseV` to parse the serialization of a value. -/
def fuelV : Json → Nat
  | .null => 1
  | .bool _ => 1
  | .int _ => 1
  | .str s => s.data.length + 2
  | .arr es => 1 + fuelElems es
  | .obj fs => 1 + fuelFields fs

/-- Fuel sufficient for `parseElems` on serialized elements. -/
def fuelElems : List Json → Nat
  | [] => 0
  | v :: vs => 1 + fuelV v + fuelElems vs

/-- Fuel sufficient for `parseFields` on serialized fields. -/
def fuelFields : List (String × Json) → Nat
  | [] => 0
  | (k, v) :: fs => 2 + k.data.length + fuelV v + fuelFields fs

end

/-- Characters that may legally follow a serialized number without extending
it: end of input, or a character that is neither a digit nor a fraction or
exponent marker. -/
def numBoundary : List Char → Prop
  | [] => True
  | c :: _ => isDigitC c = false ∧ c ≠ '.' ∧ c ≠ 'e' ∧ c ≠ 'E'

/-! ### Field-list algebra -/

theorem lookupField_setField_self (fs : List (String × Json)) (k : String) (v : Json) :
    lookupField (setField fs k v) k = some v := by
  induction fs with
  | nil => simp [setField, lookupField]
  | cons kv fs ih =>
      obtain ⟨k1, w⟩ := kv
      by_cases h : k1 = k
      · simp [setField, h, lookupField]
      · simp [setField, h, lookupField, ih]

theorem lookupField_setField_ne (fs : List (String × Json)) (k k2 : String) (v : Json)
    (h : k2 ≠ k) : lookupField (setField fs k v) k2 = lookupField fs k2 := by
  induction fs with
  | nil => simp [setField, lookupField, Ne.symm h]
  | cons kv fs ih =>
      obtain ⟨k1, w⟩ := kv
      by_cases h1 : k1 = k
      · subst h1
        simp [setField, lookupField, Ne.symm h]
      · by_cases h2 : k1 = k2
        · simp [setField, h1, lookupField, h2, h]
        · simp [setField, h1, lookupField, h2, ih]

theorem setField_setField (fs : List (String × Json)) (k : String) (v w : Json) :
    setField (setField fs k v) k w = setField fs k w := by
  induction fs with
  | nil => simp [setField]
  | cons kv fs ih =>
      obtain ⟨k1, u⟩ := kv
      by_cases h : k1 = k
      · simp [setField, h]
      · simp [setField, h, ih]

theorem lookupField_updateField_self (fs : List (String × Json)) (k : String)
    (f : Json → Json) : lookupField (updateField fs k f) k = (lookupField fs k).map f := by
  induction fs with
  | nil => simp [updateField, lookupField]
  | cons kv fs ih =>
      obtain ⟨k1, w⟩ := kv
      by_cases h : k1 = k
      · simp [updateField, h, lookupField]
      · simp [updateField, h, lookupField, ih]

theorem lookupField_updateField_ne (fs : List (String × Json)) (k k2 : String)
    (f : Json → Json) (h : k2 ≠ k) :
    lookupField (updateField fs k f) k2 = lookupField fs k2 := by
  induction fs with
  | nil => simp [updateField, lookupField]
  | cons kv fs ih =>
      obtain ⟨k1, w⟩ := kv
      by_cases h1 : k1 = k
      · subst h1
        simp [updateField, lookupField, Ne.symm h]
      · by_cases h2 : k1 = k2
        · simp [updateField, h1, lookupField, h2, h]
        · simp [updateField, h1, lookupField, h2, ih]

theorem updateField_eq_self (fs : List (String × Json)) (k : String) (f : Json → Json)
    (h : ∀ w, lookupField fs k = some w → f w = w) : updateField fs k f = fs := by
  induction fs with
  | nil => simp [updateField]
  | cons kv fs ih =>
      obtain ⟨k1, w⟩ := kv
      by_cases h1 : k1 = k
      · have := h w (by simp [lookupField, h1])
        simp [updateField, h1, this]
      · refine ?_
        have ih' := ih (fun w hw => h w (by simp [lookupField, h1, hw]))
        simp [updateField, h1, ih']

theorem updateField_congr (fs : List (String × Json)) (k : String) (f g : Json → Json)
    (h : ∀ w, f w = g w) : updateField fs k f = updateField fs k g := by
  induction fs with
  | nil => simp [updateField]
  | cons kv fs ih =>
      obtain ⟨k1, w⟩ := kv
      by_cases h1 : k1 = k
      · simp [updateField, h1, h]
      · simp [updateField, h1, ih]

theorem updateField_updateField (fs : List (String × Json)) (k : String)
    (f g : Json → Json) :
    updateField (updateField fs k f) k g = updateField fs k (fun w => g (f w)) := by
  induction fs with
  | nil => simp [updateField]
  | cons kv fs ih =>
      obtain ⟨k1, w⟩ := kv
      by_cases h1 : k1 = k
      · simp [updateField, h1]
      · simp [updateField, h1, ih]

theorem updateField_comm (fs : List (String × Json)) (k1 k2 : String)
    (f g : Json → Json) (h : k1 ≠ k2) :
    updateField (updateField fs k1 f) k2 g = updateField (updateField fs k2 g) k1 f := by
  induction fs with
  | nil => simp [updateField]
  | cons kv fs ih =>
      obtain ⟨ka, w⟩ := kv
      by_cases ha : ka = k1
      · subst ha
        simp [updateField, h, if_neg h]
      · by_cases hb : ka = k2
        · subst hb
          simp [updateField, ha, if_neg ha]
        · simp [updateField, ha, hb, ih]

theorem delField_absent (fs : List (String × Json)) (k : String)
    (h : lookupField fs k = none) : delField fs k = fs := by
  induction fs with
  | nil => simp [delField]
  | cons kv fs ih =>
      obtain ⟨k1, w⟩ := kv
      by_cases h1 : k1 = k
      · simp [lookupField, h1] at h
      · simp [lookupField, h1] at h
        simp [delField, h1, ih h]

theorem delField_setField (fs : List (String × Json)) (k : String) (v : Json) :
    delField (setField fs k v) k = delField fs k := by
  induction fs with
  | nil => simp [setField, delField]
  | cons kv fs ih =>
      obtain ⟨k1, w⟩ := kv
      by_cases h1 : k1 = k
      · simp [setField, delField, h1]
      · simp [setField, delField, h1, ih]

theorem delField_updateField (fs : List (String × Json)) (k : String) (f : Json → Json) :
    delField (updateField fs k f) k = delField fs k := by
  induction fs with
  | nil => simp [updateField, delField]
  | cons kv fs ih =>
      obtain ⟨k1, w⟩ := kv
      by_cases h1 : k1 = k
      · simp [updateField, delField, h1]
      · simp [updateField, delField, h1, ih]

/-! ### Json-level property lemmas -/

theorem updateField_absent (fs : List (String × Json)) (k : String) (f : Json → Json)
    (h : lookupField fs k = none) : updateField fs k f = fs := by
  refine updateField_eq_self fs k f ?_
  intro w hw
  rw [h] at hw
  cases hw

theorem Json.set_set (a : Json) (k : String) (v w : Json) :
    (a.set k v).set k w = a.set k w := by
  cases a <;> simp [Json.set, setField_setField]

theorem propGet_set_ne (a : Json) (k k2 : String) (v : Json) (h : k2 ≠ k) :
    propGet (a.set k v) k2 = propGet a k2 := by
  cases a <;> simp [Json.set, propGet, lookupField_setField_ne _ _ _ _ h]

theorem propGet_set_obj (fs : List (String × Json)) (k : String) (v : Json) :
    propGet ((Json.obj fs).set k v) k = some v := by
  simp [Json.set, propGet, lookupField_setField_self]

theorem delKey_set (a : Json) (k : String) (v : Json) :
    delKey (a.set k v) k = delKey a k := by
  cases a <;> simp [Json.set, delKey, delField_setField]

theorem updF_updF (a : Json) (k : String) (f g : Json → Json) :
    updF (updF a k f) k g = updF a k (fun w => g (f w)) := by
  cases a <;> simp [updF, updateField_updateField]

theorem updF_congr (a : Json) (k : String) (f g : Json → Json) (h : ∀ w, f w = g w) :
    updF a k f = updF a k g := by
  cases a <;> simp [updF, updateField_congr _ _ _ _ h]

theorem updF_comm (a : Json) (k1 k2 : String) (f g : Json → Json) (h : k1 ≠ k2) :
    updF (updF a k1 f) k2 g = updF (updF a k2 g) k1 f := by
  cases a <;> simp [updF, updateField_comm _ _ _ _ _ h]

theorem truthy_set (a : Json) (k : String) (v : Json) (h : truthy a = true) :
    truthy (a.set k v) = true := by
  cases a <;> simp_all [Json.set, truthy]

theorem set_ne_null (a : Json) (k : String) (v : Json) (h : a ≠ Json.null) :
    a.set k v ≠ Json.null := by
  cases a <;> simp_all [Json.set]

theorem updF_ne_null (a : Json) (k : String) (f : Json → Json) (h : a ≠ Json.null) :
    updF a k f ≠ Json.null := by
  cases a <;> simp_all [updF]

/-! ### Reading nested fields through the in-place mutations -/

theorem optChain_mutIn_self (c : Json) (ko ki : String) (f : Json → Json) :
    optChain (updF c ko (fun p => updF p ki f)) ko ki = (optChain c ko ki).map f := by
  cases c with
  | obj fs =>
      simp only [updF, optChain, propGet]
      rw [lookupField_updateField_self]
      cases hp : lookupField fs ko with
      | none => simp
      | some p =>
          cases p with
          | null => simp [updF]
          | obj pfs =>
              simp only [Option.map_some', updF]
              simp [propGet, lookupField_updateField_self]
          | bool b => simp [updF, propGet]
          | int n => simp [updF, propGet]
          | str s => simp [updF, propGet]
          | arr es => simp [updF, propGet]
  | null => simp [updF, optChain, propGet]
  | bool b => simp [updF, optChain, propGet]
  | int n => simp [updF, optChain, propGet]
  | str s => simp [updF, optChain, propGet]
  | arr es => simp [updF, optChain, propGet]

theorem optChain_mutIn_ne (c : Json) (ko ki ki2 : String) (f : Json → Json)
    (h : ki2 ≠ ki) :
    optChain (updF c ko (fun p => updF p ki f)) ko ki2 = optChain c ko ki2 := by
  cases c with
  | obj fs =>
      simp only [updF, optChain, propGet]
      rw [lookupField_updateField_self]
      cases hp : lookupField fs ko with
      | none => simp
      | some p =>
          cases p with
          | null => simp [updF]
          | obj pfs =>
              simp only [Option.map_some', updF]
              simp [propGet, lookupField_updateField_ne _ _ _ _ h]
          | bool b => simp [updF, propGet]
          | int n => simp [updF, propGet]
          | str s => simp [updF, propGet]
          | arr es => simp [updF, propGet]
  | null => simp [updF, optChain, propGet]
  | bool b => simp [updF, optChain, propGet]
  | int n => simp [updF, optChain, propGet]
  | str s => simp [updF, optChain, propGet]
  | arr es => simp [updF, optChain, propGet]

/-! ### Idempotence of the companies transform -/

theorem mutAtt_mutAtt (c : Json) : mutAtt (mutAtt c) = mutAtt c := by
  unfold mutAtt
  rw [updF_updF]
  refine updF_congr _ _ _ _ ?_
  intro p
  rw [updF_updF]
  refine updF_congr _ _ _ _ ?_
  intro a
  exact Json.set_set a _ _ _

theorem mutPay_mutPay (c : Json) : mutPay (mutPay c) = mutPay c := by
  unfold mutPay
  rw [updF_updF]
  refine updF_congr _ _ _ _ ?_
  intro p
  rw [updF_updF]
  refine updF_congr _ _ _ _ ?_
  intro a
  exact Json.set_set a _ _ _

theorem optChain_mutAtt_att (c : Json) :
    optChain (mutAtt c) "permissions" "attendance"
      = (optChain c "permissions" "attendance").map
          (fun a => a.set "approve" (Json.bool true)) := by
  unfold mutAtt
  exact optChain_mutIn_self c _ _ _

theorem optChain_mutAtt_pay (c : Json) :
    optChain (mutAtt c) "permissions" "payroll"
      = optChain c "permissions" "payroll" := by
  unfold mutAtt
  exact optChain_mutIn_ne c _ _ _ _ (by decide)

theorem optChain_mutPay_att (c : Json) :
    optChain (mutPay c) "permissions" "attendance"
      = optChain c "permissions" "attendance" := by
  unfold mutPay
  exact optChain_mutIn_ne c _ _ _ _ (by decide)

theorem optChain_mutPay_pay (c : Json) :
    optChain (mutPay c) "permissions" "payroll"
      = (optChain c "permissions" "payroll").map
          (fun a => a.set "edit_supplements" (Json.bool true)) := by
  unfold mutPay
  exact optChain_mutIn_self c _ _ _

theorem updF_eq_self (a : Json) (k : String) (f : Json → Json)
    (h : ∀ w, propGet a k = some w → f w = w) : updF a k f = a := by
  cases a with
  | obj fs =>
      simp only [updF]
      congr 1
      refine updateField_eq_self _ _ _ ?_
      intro w hw
      exact h w (by simpa [propGet] using hw)
  | null => rfl
  | bool b => rfl
  | int n => rfl
  | str s => rfl
  | arr es => rfl

theorem mutIn_eq_self (c : Json) (ko ki : String) (f : Json → Json)
    (h : ∀ a, optChain c ko ki = some a → f a = a) :
    updF c ko (fun p => updF p ki f) = c := by
  refine updF_eq_self _ _ _ ?_
  intro p hp
  cases p with
  | null => rfl
  | obj pfs =>
      simp only [updF]
      congr 1
      refine updateField_eq_self _ _ _ ?_
      intro a ha
      refine h a ?_
      simp only [optChain]
      rw [hp]
      simp [propGet, ha]
  | bool b => rfl
  | int n => rfl
  | str s => rfl
  | arr es => rfl

theorem mutAtt_eq_self (c : Json)
    (h : ∀ a, optChain c "permissions" "attendance" = some a →
      a.set "approve" (Json.bool true) = a) : mutAtt c = c := by
  unfold mutAtt
  exact mutIn_eq_self c _ _ _ h

theorem mutPay_eq_self (c : Json)
    (h : ∀ a, optChain c "permissions" "payroll" = some a →
      a.set "edit_supplements" (Json.bool true) = a) : mutPay c = c := by
  unfold mutPay
  exact mutIn_eq_self c _ _ _ h

theorem mockCompany_noop (c : Json) (h0 : c ≠ Json.null)
    (h1 : ∀ a, optChain c "permissions" "attendance" = some a → truthy a = true →
      mutAtt c = c)
    (h2 : ∀ a, optChain c "permissions" "payroll" = some a → truthy a = true →
      mutPay c = c) :
    mockCompany c = (c, false) := by
  have main : ∀ fs, c = Json.obj fs → mockCompany c = (c, false) := by
    intro fs hc
    subst hc
    cases hA : optChain (Json.obj fs) "permissions" "attendance" with
    | none =>
        cases hP : optChain (Json.obj fs) "permissions" "payroll" with
        | none => simp [mockCompany, hA, hP]
        | some pay =>
            by_cases ht : truthy pay = true
            · simp [mockCompany, hA, hP, ht, h2 pay hP ht]
            · have ht' : truthy pay = false := by simpa using ht
              simp [mockCompany, hA, hP, ht']
    | some a =>
        by_cases hta : truthy a = true
        · have e1 := h1 a hA hta
          cases hP : optChain (Json.obj fs) "permissions" "payroll" with
          | none => simp [mockCompany, hA, hta, e1, hP]
          | some pay =>
              by_cases ht : truthy pay = true
              · simp [mockCompany, hA, hta, e1, hP, ht, h2 pay hP ht]
              · have ht' : truthy pay = false := by simpa using ht
                simp [mockCompany, hA, hta, e1, hP, ht']
        · have hta' : truthy a = false := by simpa using hta
          cases hP : optChain (Json.obj fs) "permissions" "payroll" with
          | none => simp [mockCompany, hA, hta', hP]
          | some pay =>
              by_cases ht : truthy pay = true
              · simp [mockCompany, hA, hta', hP, ht, h2 pay hP ht]
              · have ht' : truthy pay = false := by simpa using ht
                simp [mockCompany, hA, hta', hP, ht']
  cases c with
  | null => exact absurd rfl h0
  | obj fs => exact main fs rfl
  | bool b => simp [mockCompany, optChain, propGet]
  | int n => simp [mockCompany, optChain, propGet]
  | str s => simp [mockCompany, optChain, propGet]
  | arr es => simp [mockCompany, optChain, propGet]

theorem mutAtt_mutPay (c : Json) : mutAtt (mutPay c) = mutPay (mutAtt c) := by
  unfold mutAtt mutPay
  rw [updF_updF, updF_updF]
  refine updF_congr _ _ _ _ ?_
  intro p
  exact updF_comm p _ _ _ _ (by decide)

theorem mockCompany_idem (c : Json) : mockCompany (mockCompany c).1 = mockCompany c := by
  cases c with
  | null => simp [mockCompany]
  | bool b => simp [mockCompany, optChain, propGet]
  | int n => simp [mockCompany, optChain, propGet]
  | str s => simp [mockCompany, optChain, propGet]
  | arr es => simp [mockCompany, optChain, propGet]
  | obj fs =>
      cases hA : optChain (Json.obj fs) "permissions" "attendance" with
      | none =>
          cases hP : optChain (Json.obj fs) "permissions" "payroll" with
          | none =>
              have f1 : mockCompany (Json.obj fs) = (Json.obj fs, false) := by
                simp [mockCompany, hA, hP]
              rw [f1]
              exact f1
          | some pay =>
              by_cases ht : truthy pay = true
              · have f1 : mockCompany (Json.obj fs) = (mutPay (Json.obj fs), false) := by
                  simp [mockCompany, hA, hP, ht]
                rw [f1]
                show mockCompany (mutPay (Json.obj fs)) = (mutPay (Json.obj fs), false)
                refine mockCompany_noop _ (by simp [mutPay, updF]) ?_ ?_
                · intro a ha _
                  rw [optChain_mutPay_att, hA] at ha
                  cases ha
                · intro a _ _
                  exact mutPay_mutPay _
              · have ht' : truthy pay = false := by simpa using ht
                have f1 : mockCompany (Json.obj fs) = (Json.obj fs, false) := by
                  simp [mockCompany, hA, hP, ht']
                rw [f1]
                exact f1
      | some a =>
          by_cases hta : truthy a = true
          · cases hP : optChain (mutAtt (Json.obj fs)) "permissions" "payroll" with
            | none =>
                have f1 : mockCompany (Json.obj fs) = (mutAtt (Json.obj fs), false) := by
                  simp [mockCompany, hA, hta, hP]
                rw [f1]
                show mockCompany (mutAtt (Json.obj fs)) = (mutAtt (Json.obj fs), false)
                refine mockCompany_noop _ (by simp [mutAtt, updF]) ?_ ?_
                · intro a2 _ _
                  exact mutAtt_mutAtt _
                · intro a2 ha2 _
                  rw [hP] at ha2
                  cases ha2
            | some pay =>
                by_cases ht : truthy pay = true
                · have f1 : mockCompany (Json.obj fs)
                      = (mutPay (mutAtt (Json.obj fs)), false) := by
                    simp [mockCompany, hA, hta, hP, ht]
                  rw [f1]
                  show mockCompany (mutPay (mutAtt (Json.obj fs)))
                    = (mutPay (mutAtt (Json.obj fs)), false)
                  refine mockCompany_noop _
                    (by simp [mutPay, mutAtt, updF]) ?_ ?_
                  · intro a2 _ _
                    rw [mutAtt_mutPay, mutAtt_mutAtt]
                  · intro a2 _ _
                    exact mutPay_mutPay _
                · have ht' : truthy pay = false := by simpa using ht
                  have f1 : mockCompany (Json.obj fs) = (mutAtt (Json.obj fs), false) := by
                    simp [mockCompany, hA, hta, hP, ht']
                  rw [f1]
                  show mockCompany (mutAtt (Json.obj fs)) = (mutAtt (Json.obj fs), false)
                  refine mockCompany_noop _ (by simp [mutAtt, updF]) ?_ ?_
                  · intro a2 _ _
                    exact mutAtt_mutAtt _
                  · intro a2 ha2 htt2
                    rw [hP] at ha2
                    injection ha2 with ha3
                    rw [← ha3, ht'] at htt2
                    cases htt2
          · have hta' : truthy a = false := by simpa using hta
            cases hP : optChain (Json.obj fs) "permissions" "payroll" with
            | none =>
                have f1 : mockCompany (Json.obj fs) = (Json.obj fs, false) := by
                  simp [mockCompany, hA, hta', hP]
                rw [f1]
                exact f1
            | some pay =>
                by_cases ht : truthy pay = true
                · have f1 : mockCompany (Json.obj fs) = (mutPay (Json.obj fs), false) := by
                    simp [mockCompany, hA, hta', hP, ht]
                  rw [f1]
                  show mockCompany (mutPay (Json.obj fs)) = (mutPay (Json.obj fs), false)
                  refine mockCompany_noop _ (by simp [mutPay, updF]) ?_ ?_
                  · intro a2 ha2 htt2
                    rw [optChain_mutPay_att, hA] at ha2
                    injection ha2 with ha3
                    rw [← ha3, hta'] at htt2
                    cases htt2
                  · intro a2 _ _
                    exact mutPay_mutPay _
                · have ht' : truthy pay = false := by simpa using ht
                  have f1 : mockCompany (Json.obj fs) = (Json.obj fs, false) := by
                    simp [mockCompany, hA, hta', hP, ht']
                  rw [f1]
                  exact f1

theorem mockCompanyLoop_idem (es : List Json) :
    mockCompanyLoop (mockCompanyLoop es).1 = mockCompanyLoop es := by
  induction es with
  | nil => simp [mockCompanyLoop]
  | cons c cs ih =>
      have hidem := mockCompany_idem c
      by_cases ht : (mockCompany c).2 = true
      · simp [mockCompanyLoop, ht, hidem]
      · have ht' : (mockCompany c).2 = false := by simpa using ht
        simp [mockCompanyLoop, ht', hidem, ih]

theorem mockCompanyLoop_length (es : List Json) :
    (mockCompanyLoop es).1.length = es.length := by
  induction es with
  | nil => simp [mockCompanyLoop]
  | cons c cs ih =>
      by_cases ht : (mockCompany c).2 = true
      · simp [mockCompanyLoop, ht]
      · have ht' : (mockCompany c).2 = false := by simpa using ht
        simp [mockCompanyLoop, ht', ih]

theorem mock_companies_idem (v : Json) :
    (mock_companies (mock_companies v).1).1 = (mock_companies v).1 := by
  cases v with
  | arr es =>
      cases es with
      | nil => simp [mock_companies]
      | cons c cs =>
          have hlen : (mockCompanyLoop (c :: cs)).1.length = (c :: cs).length :=
            mockCompanyLoop_length _
          have hloop := mockCompanyLoop_idem (c :: cs)
          by_cases ht : (mockCompanyLoop (c :: cs)).2 = true
          · simp only [mock_companies, List.length_cons, Nat.zero_lt_succ, if_true, ht]
            simp only [Nat.lt_irrefl, gt_iff_lt, Nat.zero_lt_succ]
            simp [hlen, hloop, ht]
          · have ht' : (mockCompanyLoop (c :: cs)).2 = false := by simpa using ht
            simp only [mock_companies, List.length_cons, Nat.zero_lt_succ, if_true, ht']
            simp [hlen, hloop, ht']
  | null => simp [mock_companies]
  | bool b => simp [mock_companies]
  | int n => simp [mock_companies]
  | str s => simp [mock_companies]
  | obj fs => simp [mock_companies]

/-! ### Idempotence of the policies transform -/

theorem keyMatchB_set_authorize (p v : Json) :
    keyMatchB (p.set "authorize" v) = keyMatchB p := by
  unfold keyMatchB
  rw [propGet_set_ne _ _ _ _ (by decide)]

theorem mockPolicy_idem (p : Json) :
    (mockPolicy (mockPolicy p).1).1 = (mockPolicy p).1 ∧
    (mockPolicy (mockPolicy p).1).2.2 = (mockPolicy p).2.2 := by
  cases p with
  | null => simp [mockPolicy]
  | bool b => simp [mockPolicy, keyMatchB, propGet]
  | int n => simp [mockPolicy, keyMatchB, propGet]
  | str s => simp [mockPolicy, keyMatchB, propGet]
  | arr es => simp [mockPolicy, keyMatchB, propGet]
  | obj fs =>
      by_cases hk : keyMatchB (Json.obj fs) = true
      · by_cases ha : truthyO (propGet (Json.obj fs) "authorize") = true
        · simp [mockPolicy, hk, ha]
        · have ha' : truthyO (propGet (Json.obj fs) "authorize") = false := by simpa using ha
          have hset : (Json.obj fs).set "authorize" (Json.bool true)
              = Json.obj (setField fs "authorize" (Json.bool true)) := rfl
          have hk2 : keyMatchB ((Json.obj fs).set "authorize" (Json.bool true)) = true := by
            rw [keyMatchB_set_authorize]; exact hk
          have ha2 : truthyO (propGet ((Json.obj fs).set "authorize" (Json.bool true))
              "authorize") = true := by
            rw [propGet_set_obj]; rfl
          simp only [mockPolicy, hk, ha', if_true, Bool.false_eq_true, if_false]
          rw [hset] at hk2 ha2 ⊢
          simp [mockPolicy, hk2, ha2]
      · have hk' : keyMatchB (Json.obj fs) = false := by simpa using hk
        simp [mockPolicy, hk']

theorem mockPolicyLoop_idem (ps : List Json) :
    (mockPolicyLoop (mockPolicyLoop ps).1).1 = (mockPolicyLoop ps).1 ∧
    (mockPolicyLoop (mockPolicyLoop ps).1).2.2 = (mockPolicyLoop ps).2.2 := by
  induction ps with
  | nil => simp [mockPolicyLoop]
  | cons p ps ih =>
      have hidem := mockPolicy_idem p
      by_cases ht : (mockPolicy p).2.2 = true
      · simp [mockPolicyLoop, ht, hidem.1, hidem.2]
      · have ht' : (mockPolicy p).2.2 = false := by simpa using ht
        simp [mockPolicyLoop, ht', hidem.1, hidem.2, ih.1, ih.2]

theorem mockPolicyLoop_length (ps : List Json) :
    (mockPolicyLoop ps).1.length = ps.length := by
  induction ps with
  | nil => simp [mockPolicyLoop]
  | cons p ps ih =>
      by_cases ht : (mockPolicy p).2.2 = true
      · simp [mockPolicyLoop, ht]
      · have ht' : (mockPolicy p).2.2 = false := by simpa using ht
        simp [mockPolicyLoop, ht', ih]

theorem mock_authorize_policies_idem (v : Json) :
    (mock_authorize_policies (mock_authorize_policies v).1).1
      = (mock_authorize_policies v).1 := by
  cases v with
  | arr es =>
      cases es with
      | nil => simp [mock_authorize_policies]
      | cons p ps =>
          have hlen : (mockPolicyLoop (p :: ps)).1.length = (p :: ps).length :=
            mockPolicyLoop_length _
          have hloop := mockPolicyLoop_idem (p :: ps)
          simp only [mock_authorize_policies, List.length_cons, Nat.zero_lt_succ, if_true]
          simp [hlen, hloop.1, hloop.2]
  | null => simp [mock_authorize_policies]
  | bool b => simp [mock_authorize_policies]
  | int n => simp [mock_authorize_policies]
  | str s => simp [mock_authorize_policies]
  | obj fs => simp [mock_authorize_policies]

/-! ### UTF-8: decoding inverts encoding -/

theorem decStep_init_ascii (n : Nat) (h : n ≤ 0x7F) :
    decStep DecSt.init n = ([Char.ofNat n], DecSt.init) := by
  simp only [decStep, decStart, DecSt.init]
  rw [if_pos trivial, if_pos h]

theorem decStep_init_two (n : Nat) (h1 : 0x80 ≤ n) (h2 : n < 0x800) :
    decStep DecSt.init (0xC0 + n / 64) = ([], ⟨n / 64, 0, 1, 0x80, 0xBF⟩) := by
  obtain ⟨q, hq⟩ : ∃ q, n / 64 = q := ⟨_, rfl⟩
  have hqb : 2 ≤ q ∧ q ≤ 31 := by omega
  rw [hq]
  simp only [decStep, decStart, DecSt.init]
  rw [if_pos trivial, if_neg (by omega), if_pos (by omega)]
  refine congrArg _ ?_
  congr 1
  omega

theorem decStep_cont_mid (cp sn nd m : Nat) (hm : m ≤ 63) (hlt : sn + 1 < nd) :
    decStep ⟨cp, sn, nd, 0x80, 0xBF⟩ (0x80 + m)
      = ([], ⟨cp * 64 + m, sn + 1, nd, 0x80, 0xBF⟩) := by
  simp only [decStep]
  rw [if_neg (by omega), if_pos (by constructor <;> omega), if_neg (by omega)]
  refine congrArg _ ?_
  congr 1
  omega

theorem decStep_cont_last (cp nd m : Nat) (hm : m ≤ 63) (hnd : 0 < nd) :
    decStep ⟨cp, nd - 1, nd, 0x80, 0xBF⟩ (0x80 + m)
      = ([Char.ofNat (cp * 64 + m)], DecSt.init) := by
  simp only [decStep]
  rw [if_neg (by omega), if_pos (by constructor <;> omega), if_pos (by omega)]
  refine congrArg (fun x => ([Char.ofNat x], DecSt.init)) ?_
  omega

theorem decStep_cont_first (cp nd m lo hi : Nat) (hm : m ≤ 63)
    (hlo : lo ≤ 0x80 + m) (hhi : 0x80 + m ≤ hi) (hnd : 2 ≤ nd) :
    decStep ⟨cp, 0, nd, lo, hi⟩ (0x80 + m) = ([], ⟨cp * 64 + m, 1, nd, 0x80, 0xBF⟩) := by
  simp only [decStep]
  rw [if_neg (by omega), if_pos (by constructor <;> omega), if_neg (by omega)]
  refine congrArg _ ?_
  congr 1
  omega

theorem decStep_init_three (n lo hi : Nat) (h1 : 0x800 ≤ n) (h2 : n < 0x10000)
    (hlo : lo = if n < 0x1000 then 0xA0 else 0x80)
    (hhi : hi = if 0xD000 ≤ n ∧ n < 0xE000 then 0x9F else 0xBF) :
    decStep DecSt.init (0xE0 + n / 4096) = ([], ⟨n / 4096, 0, 2, lo, hi⟩) := by
  obtain ⟨q, hq⟩ : ∃ q, n / 4096 = q := ⟨_, rfl⟩
  have hqb : q ≤ 15 := by omega
  rw [hq]
  simp only [decStep, decStart, DecSt.init]
  rw [if_pos trivial, if_neg (by omega), if_neg (by omega), if_pos (by omega)]
  refine congrArg _ ?_
  by_cases hA : n < 0x1000
  · have hq0 : q = 0 := by omega
    subst hq0
    have hB : ¬(0xD000 ≤ n ∧ n < 0xE000) := by omega
    rw [hlo, hhi, if_pos hA, if_neg hB]
    norm_num
  · by_cases hB : 0xD000 ≤ n ∧ n < 0xE000
    · have hq13 : q = 13 := by omega
      subst hq13
      rw [hlo, hhi, if_neg hA, if_pos hB]
      norm_num
    · rw [hlo, hhi, if_neg hA, if_neg hB]
      have hne0 : ¬(0xE0 + q = 0xE0) := by omega
      have hne13 : ¬(0xE0 + q = 0xED) := by omega
      rw [if_neg hne0, if_neg hne13]
      congr 1
      omega

theorem decStep_init_four (n lo hi : Nat) (h1 : 0x10000 ≤ n) (h2 : n < 0x110000)
    (hlo : lo = if n < 0x40000 then 0x90 else 0x80)
    (hhi : hi = if 0x100000 ≤ n then 0x8F else 0xBF) :
    decStep DecSt.init (0xF0 + n / 262144) = ([], ⟨n / 262144, 0, 3, lo, hi⟩) := by
  obtain ⟨q, hq⟩ : ∃ q, n / 262144 = q := ⟨_, rfl⟩
  have hqb : q ≤ 4 := by omega
  rw [hq]
  simp only [decStep, decStart, DecSt.init]
  rw [if_pos trivial, if_neg (by omega), if_neg (by omega), if_neg (by omega),
    if_pos (by omega)]
  refine congrArg _ ?_
  by_cases hA : n < 0x40000
  · have hq0 : q = 0 := by omega
    subst hq0
    have hB : ¬(0x100000 ≤ n) := by omega
    rw [hlo, hhi, if_pos hA, if_neg hB]
    norm_num
  · by_cases hB : 0x100000 ≤ n
    · have hq4 : q = 4 := by omega
      subst hq4
      rw [hlo, hhi, if_neg hA, if_pos hB]
      norm_num
    · rw [hlo, hhi, if_neg hA, if_neg hB]
      have hne0 : ¬(0xF0 + q = 0xF0) := by omega
      have hne4 : ¬(0xF0 + q = 0xF4) := by omega
      rw [if_neg hne0, if_neg hne4]
      congr 1
      omega

theorem decodeLoop_encodeChar (c : Char) (bs : List Nat) :
    decodeLoop DecSt.init (encodeChar c ++ bs) = c :: decodeLoop DecSt.init bs := by
  have hv : c.toNat < 0xD800 ∨ (0xE000 ≤ c.toNat ∧ c.toNat < 0x110000) := by
    have h := c.valid
    unfold UInt32.isValidChar at h
    exact h
  have hofn : Char.ofNat c.toNat = c := Char.ofNat_toNat c
  obtain ⟨n, hn⟩ : ∃ n, c.toNat = n := ⟨_, rfl⟩
  rw [hn] at hv hofn
  by_cases h1 : n < 0x80
  · have he : encodeChar c = [n] := by
      simp only [encodeChar, hn]
      rw [if_pos h1]
    rw [he]
    simp only [List.cons_append, List.nil_append, decodeLoop]
    rw [decStep_init_ascii n (by omega), hofn]
    simp
  · by_cases h2 : n < 0x800
    · have he : encodeChar c = [0xC0 + n / 64, 0x80 + n % 64] := by
        simp only [encodeChar, hn]
        rw [if_neg h1, if_pos h2]
      rw [he]
      simp only [List.cons_append, List.nil_append, decodeLoop]
      rw [decStep_init_two n (by omega) h2]
      simp only [List.nil_append]
      rw [decStep_cont_last (n / 64) 1 (n % 64) (by omega) (by omega)]
      have : (n / 64) * 64 + n % 64 = n := by omega
      rw [this, hofn]
      simp
    · by_cases h3 : n < 0x10000
      · have he : encodeChar c = [0xE0 + n / 4096, 0x80 + (n / 64) % 64, 0x80 + n % 64] := by
          simp only [encodeChar, hn]
          rw [if_neg h1, if_neg h2, if_pos h3]
        rw [he]
        obtain ⟨r, hr⟩ : ∃ r, n / 64 = r := ⟨_, rfl⟩
        have hr4096 : n / 4096 = r / 64 := by
          rw [← hr, Nat.div_div_eq_div_mul]
        have hrb : 32 ≤ r ∧ r ≤ 1023 := by omega
        simp only [List.cons_append, List.nil_append, decodeLoop]
        rw [decStep_init_three n _ _ (by omega) h3 rfl rfl]
        simp only [List.nil_append]
        rw [hr, hr4096]
        rw [decStep_cont_first (r / 64) 2 (r % 64) _ _ (by omega) ?hlo ?hhi (by omega)]
        case hlo =>
          by_cases hA : n < 0x1000
          · rw [if_pos hA]
            omega
          · rw [if_neg hA]
            omega
        case hhi =>
          by_cases hB : 0xD000 ≤ n ∧ n < 0xE000
          · rw [if_pos hB]
            rcases hv with hv1 | hv2 <;> omega
          · rw [if_neg hB]
            omega
        simp only [List.nil_append, decodeLoop]
        rw [decStep_cont_last (r / 64 * 64 + r % 64) 2 (n % 64) (by omega) (by omega)]
        have : (r / 64 * 64 + r % 64) * 64 + n % 64 = n := by omega
        rw [this, hofn]
        simp
      · have h4 : n < 0x110000 := by rcases hv with hv1 | hv2 <;> omega
        have he : encodeChar c
            = [0xF0 + n / 262144, 0x80 + (n / 4096) % 64, 0x80 + (n / 64) % 64,
               0x80 + n % 64] := by
          simp only [encodeChar, hn]
          rw [if_neg h1, if_neg h2, if_neg h3]
        rw [he]
        obtain ⟨r, hr⟩ : ∃ r, n / 64 = r := ⟨_, rfl⟩
        obtain ⟨t, ht⟩ : ∃ t, n / 4096 = t := ⟨_, rfl⟩
        have ht64 : t = r / 64 := by
          rw [← hr, ← ht, Nat.div_div_eq_div_mul]
        have ht262144 : n / 262144 = t / 64 := by
          rw [← ht, Nat.div_div_eq_div_mul]
        have hrb : r ≤ 17407 := by omega
        have htb : 16 ≤ t ∧ t ≤ 271 := by omega
        simp only [List.cons_append, List.nil_append, decodeLoop]
        rw [decStep_init_four n _ _ (by omega) h4 rfl rfl]
        simp only [List.nil_append]
        rw [ht, ht262144]
        rw [decStep_cont_first (t / 64) 3 (t % 64) _ _ (by omega) ?hlo4 ?hhi4 (by omega)]
        case hlo4 =>
          by_cases hA : n < 0x40000
          · rw [if_pos hA]
            omega
          · rw [if_neg hA]
            omega
        case hhi4 =>
          by_cases hB : 0x100000 ≤ n
          · rw [if_pos hB]
            omega
          · rw [if_neg hB]
            omega
        simp only [List.nil_append, decodeLoop]
        rw [hr]
        rw [decStep_cont_mid (t / 64 * 64 + t % 64) 1 3 (r % 64) (by omega) (by omega)]
        simp only [List.nil_append, decodeLoop]
        rw [decStep_cont_last ((t / 64 * 64 + t % 64) * 64 + r % 64) 3 (n % 64)
          (by omega) (by omega)]
        have : ((t / 64 * 64 + t % 64) * 64 + r % 64) * 64 + n % 64 = n := by omega
        rw [this, hofn]
        simp

theorem utf8Decode_encode (cs : List Char) : utf8DecodeStream (utf8Encode cs) = cs := by
  induction cs with
  | nil => rfl
  | cons c cs ih =>
      show decodeLoop DecSt.init (encodeChar c ++ utf8Encode cs) = c :: cs
      rw [decodeLoop_encodeChar]
      exact congrArg _ ih

/-! ### Characters, decimal digits, and `natStr` -/

theorem toNat_ofNat_valid (n : Nat) (h : n < 0xD800) : (Char.ofNat n).toNat = n := by
  have hv : n.isValidChar := Or.inl h
  unfold Char.ofNat Char.ofNatAux
  rw [dif_pos hv]
  rfl

theorem char_ne_of_toNat_ne (c d : Char) (h : c.toNat ≠ d.toNat) : c ≠ d :=
  fun he => h (he ▸ rfl)

theorem digitChar_toNat (n : Nat) (h : n < 10) : (digitChar n).toNat = 48 + n := by
  unfold digitChar
  exact toNat_ofNat_valid _ (by omega)

theorem isDigitC_digitChar (n : Nat) (h : n < 10) : isDigitC (digitChar n) = true := by
  unfold isDigitC
  rw [digitChar_toNat n h]
  simp only [Bool.and_eq_true, decide_eq_true_eq]
  omega

theorem natStrAux_congr (n : Nat) : ∀ f1 f2, n < f1 → n < f2 →
    natStrAux f1 n = natStrAux f2 n := by
  induction n using Nat.strong_induction_on with
  | _ n ih =>
      intro f1 f2 h1 h2
      cases f1 with
      | zero => omega
      | succ f1 =>
          cases f2 with
          | zero => omega
          | succ f2 =>
              rw [natStrAux, natStrAux]
              split_ifs with h10
              · rfl
              · rw [ih (n / 10) (Nat.div_lt_self (by omega) (by omega)) f1 f2
                  (by omega) (by omega)]

theorem natStr_unfold (n : Nat) : natStr n
    = if n < 10 then [digitChar n]
      else natStr (n / 10) ++ [digitChar (n % 10)] := by
  show natStrAux (n + 1) n = _
  rw [natStrAux]
  split_ifs with h10
  · rfl
  · rw [natStrAux_congr (n / 10) n (n / 10 + 1) (by omega) (by omega)]
    rfl

theorem natStr_ne_nil (n : Nat) : natStr n ≠ [] := by
  rw [natStr_unfold]
  split_ifs <;> simp

theorem natStr_all_digits (n : Nat) : ∀ c ∈ natStr n, isDigitC c = true := by
  induction n using Nat.strong_induction_on with
  | _ n ih =>
      rw [natStr_unfold]
      split_ifs with h
      · intro c hc
        simp only [List.mem_singleton] at hc
        subst hc
        exact isDigitC_digitChar n h
      · intro c hc
        rw [List.mem_append] at hc
        rcases hc with hc | hc
        · exact ih (n / 10) (Nat.div_lt_self (by omega) (by omega)) c hc
        · simp only [List.mem_singleton] at hc
          subst hc
          exact isDigitC_digitChar _ (Nat.mod_lt _ (by omega))

theorem digitsToNat_append_one (ds : List Char) (d : Char) :
    digitsToNat (ds ++ [d]) = digitsToNat ds * 10 + (d.toNat - 48) := by
  unfold digitsToNat
  rw [List.foldl_append]
  rfl

theorem digitsToNat_natStr (n : Nat) : digitsToNat (natStr n) = n := by
  induction n using Nat.strong_induction_on with
  | _ n ih =>
      rw [natStr_unfold]
      split_ifs with h
      · show 0 * 10 + ((digitChar n).toNat - 48) = n
        rw [digitChar_toNat n h]
        omega
      · rw [digitsToNat_append_one, ih (n / 10) (Nat.div_lt_self (by omega) (by omega)),
          digitChar_toNat _ (Nat.mod_lt _ (by omega))]
        omega

theorem natStr_head_ne_zero (n : Nat) (h : 1 ≤ n) : (natStr n).head? ≠ some '0' := by
  induction n using Nat.strong_induction_on with
  | _ n ih =>
      rw [natStr_unfold]
      split_ifs with h10
      · intro he
        rw [List.head?_cons, Option.some_inj] at he
        have h3 := congrArg Char.toNat he
        rw [digitChar_toNat n h10] at h3
        have h4 : ('0' : Char).toNat = 48 := rfl
        omega
      · obtain ⟨x, xs, hx⟩ : ∃ x xs, natStr (n / 10) = x :: xs := by
          cases hc : natStr (n / 10) with
          | nil => exact absurd hc (natStr_ne_nil _)
          | cons x xs => exact ⟨x, xs, rfl⟩
        have ihx := ih (n / 10) (Nat.div_lt_self (by omega) (by omega)) (by omega)
        rw [hx] at ihx ⊢
        simpa using ihx

theorem takeWhile_append_all (p : Char → Bool) (ds rest : List Char)
    (hds : ∀ c ∈ ds, p c = true)
    (hrest : ∀ c, rest.head? = some c → p c = false) :
    (ds ++ rest).takeWhile p = ds := by
  induction ds with
  | nil =>
      cases rest with
      | nil => rfl
      | cons c cs => simp [List.takeWhile_cons, hrest c rfl]
  | cons d ds ih =>
      simp [List.takeWhile_cons, hds d (by simp),
        ih (fun c hc => hds c (by simp [hc]))]

theorem dropWhile_append_all (p : Char → Bool) (ds rest : List Char)
    (hds : ∀ c ∈ ds, p c = true)
    (hrest : ∀ c, rest.head? = some c → p c = false) :
    (ds ++ rest).dropWhile p = rest := by
  induction ds with
  | nil =>
      cases rest with
      | nil => rfl
      | cons c cs => simp [List.dropWhile_cons, hrest c rfl]
  | cons d ds ih =>
      simp [List.dropWhile_cons, hds d (by simp),
        ih (fun c hc => hds c (by simp [hc]))]

/-! ### Number parsing inverts number printing -/

theorem isDigitC_bounds (c : Char) (h : isDigitC c = true) :
    48 ≤ c.toNat ∧ c.toNat ≤ 57 := by
  unfold isDigitC at h
  simpa using h

theorem parseNumber_natStr (neg : Bool) (m : Nat) (rest : List Char)
    (hb : numBoundary rest) :
    (match natStr m ++ rest with
      | [] => (none : Option (Json × List Char))
      | d :: _ =>
        if isDigitC d then
          let ds := (natStr m ++ rest).takeWhile isDigitC
          let rest1 := (natStr m ++ rest).dropWhile isDigitC
          if 1 < ds.length ∧ ds.head? = some '0' then none
          else if rest1.head? = some '.' ∨ rest1.head? = some 'e' ∨ rest1.head? = some 'E' then
            none
          else
            let v : Int := Int.ofNat (digitsToNat ds)
            some (.int (if neg then -v else v), rest1)
        else none)
      = some (.int (if neg then -(Int.ofNat m) else Int.ofNat m), rest) := by
  have hdig := natStr_all_digits m
  obtain ⟨x, xs, hx⟩ : ∃ x xs, natStr m = x :: xs := by
    cases hc : natStr m with
    | nil => exact absurd hc (natStr_ne_nil _)
    | cons x xs => exact ⟨x, xs, rfl⟩
  have hrest_nd : ∀ c, rest.head? = some c → isDigitC c = false := by
    intro c hc
    cases rest with
    | nil => cases hc
    | cons r rs =>
        rw [List.head?_cons, Option.some_inj] at hc
        subst hc
        exact hb.1
  have htake : ((natStr m) ++ rest).takeWhile isDigitC = natStr m :=
    takeWhile_append_all _ _ _ hdig hrest_nd
  have hdrop : ((natStr m) ++ rest).dropWhile isDigitC = rest :=
    dropWhile_append_all _ _ _ hdig hrest_nd
  have hlz : ¬(1 < (natStr m).length ∧ (natStr m).head? = some '0') := by
    by_cases hm : m = 0
    · subst hm
      rw [natStr_unfold]
      intro hcontra
      simp at hcontra
    · intro hcontra
      exact natStr_head_ne_zero _ (by omega) hcontra.2
  have hdot : ¬(rest.head? = some '.' ∨ rest.head? = some 'e' ∨ rest.head? = some 'E') := by
    cases rest with
    | nil => simp
    | cons r rs =>
        simp only [List.head?_cons, Option.some_inj]
        push_neg
        exact ⟨hb.2.1, hb.2.2.1, hb.2.2.2⟩
  have hxdig : isDigitC x = true := hdig x (by rw [hx]; simp)
  rw [hx] at htake hdrop hlz ⊢
  simp only [List.cons_append]
  rw [if_pos hxdig]
  simp only [List.cons_append] at htake hdrop
  rw [htake, hdrop, if_neg hlz, if_neg hdot]
  have hval : digitsToNat (x :: xs) = m := by
    rw [← hx]
    exact digitsToNat_natStr m
  rw [hval]

theorem parseNumber_intStr (n : Int) (rest : List Char) (hb : numBoundary rest) :
    parseNumber (intStr n ++ rest) = some (.int n, rest) := by
  by_cases hneg : n < 0
  · have hi : intStr n ++ rest = '-' :: (natStr n.natAbs ++ rest) := by
      unfold intStr
      rw [if_pos hneg]
      rfl
    rw [hi]
    show (match natStr n.natAbs ++ rest with
      | [] => (none : Option (Json × List Char))
      | d :: _ =>
        if isDigitC d then
          let ds := (natStr n.natAbs ++ rest).takeWhile isDigitC
          let rest1 := (natStr n.natAbs ++ rest).dropWhile isDigitC
          if 1 < ds.length ∧ ds.head? = some '0' then none
          else if rest1.head? = some '.' ∨ rest1.head? = some 'e' ∨ rest1.head? = some 'E' then
            none
          else
            let v : Int := Int.ofNat (digitsToNat ds)
            some (.int (if true then -v else v), rest1)
        else none) = some (.int n, rest)
    rw [parseNumber_natStr true n.natAbs rest hb]
    have : -(Int.ofNat n.natAbs) = n := by
      rw [Int.ofNat_eq_coe]
      omega
    rw [if_pos rfl, this]
  · have hi : intStr n = natStr n.natAbs := by
      unfold intStr
      rw [if_neg hneg]
    obtain ⟨x, xs, hx⟩ : ∃ x xs, natStr n.natAbs = x :: xs := by
      cases hc : natStr n.natAbs with
      | nil => exact absurd hc (natStr_ne_nil _)
      | cons x xs => exact ⟨x, xs, rfl⟩
    have hxdig : isDigitC x = true := natStr_all_digits _ x (by rw [hx]; simp)
    have hxne : (x == '-') = false := by
      have hbd := isDigitC_bounds x hxdig
      have : x ≠ '-' := by
        refine char_ne_of_toNat_ne x '-' ?_
        have : ('-' : Char).toNat = 45 := rfl
        omega
      simpa using this
    have hmain := parseNumber_natStr false n.natAbs rest hb
    rw [hi]
    unfold parseNumber
    rw [hx] at hmain ⊢
    simp only [List.cons_append] at hmain ⊢
    rw [hxne]
    simp only [Bool.false_eq_true, if_false] at hmain ⊢
    have hnn : Int.ofNat n.natAbs = n := by
      rw [Int.ofNat_eq_coe]
      exact Int.natAbs_of_nonneg (by omega)
    rw [hnn] at hmain
    exact hmain

/-! ### String parsing inverts string escaping -/

theorem hexVal_hexDigit (n : Nat) (h : n < 16) : hexVal (hexDigit n) = some n := by
  interval_cases n <;> rfl

theorem parseStrBody_escapeList (s : List Char) : ∀ (rest : List Char) (fuel : Nat),
    s.length + 1 ≤ fuel →
    parseStrBody fuel (escapeList s ++ ('"' :: rest)) = some (s, rest) := by
  induction s with
  | nil =>
      intro rest fuel hf
      cases fuel with
      | zero => omega
      | succ f => simp [parseStrBody, escapeList]
  | cons c s ih =>
      intro rest fuel hf
      cases fuel with
      | zero => simp at hf
      | succ f =>
          have hfs : s.length + 1 ≤ f := by
            simp only [List.length_cons] at hf
            omega
          have hstep := ih rest f hfs
          show parseStrBody (f + 1) ((escapeChar c ++ escapeList s) ++ ('"' :: rest))
            = some (c :: s, rest)
          rw [List.append_assoc]
          by_cases h1 : c = '"'
          · subst h1
            rw [show escapeChar '"' = ['\\', '"'] from rfl]
            rw [parseStrBody.eq_def]
            simp [hstep]
          · by_cases h2 : c = '\\'
            · subst h2
              rw [show escapeChar '\\' = ['\\', '\\'] from rfl]
              rw [parseStrBody.eq_def]
              simp [hstep]
            · by_cases h3 : c.toNat = 8
              · have he : escapeChar c = ['\\', 'b'] := by
                  unfold escapeChar
                  rw [if_neg h1, if_neg h2, if_pos h3]
                have hc : Char.ofNat 8 = c := by
                  rw [← h3]
                  exact Char.ofNat_toNat c
                rw [he, parseStrBody.eq_def]
                simp [hstep]
                exact hc
              · by_cases h4 : c.toNat = 9
                · have he : escapeChar c = ['\\', 't'] := by
                    unfold escapeChar
                    rw [if_neg h1, if_neg h2, if_neg h3, if_pos h4]
                  have hc : ('\t' : Char) = c := by
                    rw [← Char.ofNat_toNat c, h4]
                  rw [he, parseStrBody.eq_def]
                  simp [hstep]
                  exact hc
                · by_cases h5 : c.toNat = 10
                  · have he : escapeChar c = ['\\', 'n'] := by
                      unfold escapeChar
                      rw [if_neg h1, if_neg h2, if_neg h3, if_neg h4, if_pos h5]
                    have hc : ('\n' : Char) = c := by
                      rw [← Char.ofNat_toNat c, h5]
                    rw [he, parseStrBody.eq_def]
                    simp [hstep]
                    exact hc
                  · by_cases h6 : c.toNat = 12
                    · have he : escapeChar c = ['\\', 'f'] := by
                        unfold escapeChar
                        rw [if_neg h1, if_neg h2, if_neg h3, if_neg h4, if_neg h5,
                          if_pos h6]
                      have hc : Char.ofNat 12 = c := by
                        rw [← h6]
                        exact Char.ofNat_toNat c
                      rw [he, parseStrBody.eq_def]
                      simp [hstep]
                      exact hc
                    · by_cases h7 : c.toNat = 13
                      · have he : escapeChar c = ['\\', 'r'] := by
                          unfold escapeChar
                          rw [if_neg h1, if_neg h2, if_neg h3, if_neg h4, if_neg h5,
                            if_neg h6, if_pos h7]
                        have hc : Char.ofNat 13 = c := by
                          rw [← h7]
                          exact Char.ofNat_toNat c
                        rw [he, parseStrBody.eq_def]
                        simp [hstep]
                        exact hc
                      · by_cases h8 : c.toNat < 32
                        · have he : escapeChar c
                              = ['\\', 'u', '0', '0', hexDigit (c.toNat / 16),
                                 hexDigit (c.toNat % 16)] := by
                            unfold escapeChar
                            rw [if_neg h1, if_neg h2, if_neg h3, if_neg h4, if_neg h5,
                              if_neg h6, if_neg h7, if_pos h8]
                          have hhex1 : hexVal (hexDigit (c.toNat / 16))
                              = some (c.toNat / 16) := hexVal_hexDigit _ (by omega)
                          have hhex2 : hexVal (hexDigit (c.toNat % 16))
                              = some (c.toNat % 16) := hexVal_hexDigit _ (by omega)
                          have hval : ((0 * 16 + 0) * 16 + c.toNat / 16) * 16
                              + c.toNat % 16 = c.toNat := by omega
                          have hsur : ¬(0xD800 ≤ c.toNat ∧ c.toNat ≤ 0xDFFF) := by omega
                          have hc : Char.ofNat c.toNat = c := Char.ofNat_toNat c
                          have hhex0 : hexVal '0' = some 0 := rfl
                          rw [he, parseStrBody.eq_def]
                          simp only [List.cons_append]
                          simp [hhex0, hhex1, hhex2, hval, hsur, hstep, hc]
                          refine ⟨?_, ?_⟩
                          · intro hx
                            omega
                          · rw [show c.toNat / 16 * 16 + c.toNat % 16 = c.toNat from by omega]
                            exact hc
                        · have he : escapeChar c = [c] := by
                            unfold escapeChar
                            rw [if_neg h1, if_neg h2, if_neg h3, if_neg h4, if_neg h5,
                              if_neg h6, if_neg h7, if_neg h8]
                          rw [he, parseStrBody.eq_def]
                          simp [h1, h2, h8, hstep]

/-! ### Whitespace, duplicate keys and fuel bounds -/

theorem skipWs_cons_not (c : Char) (cs : List Char) (h : isWsC c = false) :
    skipWs (c :: cs) = c :: cs := by
  simp [skipWs, h]

theorem lookupField_none_forall (fs : List (String × Json)) (k : String)
    (h : lookupField fs k = none) : ∀ kv ∈ fs, kv.1 ≠ k := by
  induction fs with
  | nil => simp
  | cons kv fs ih =>
      obtain ⟨k1, w⟩ := kv
      by_cases h1 : k1 = k
      · simp [lookupField, h1] at h
      · simp only [lookupField, h1, if_false] at h
        intro kv2 hkv2
        rcases List.mem_cons.mp hkv2 with he | hm
        · subst he
          exact h1
        · exact ih h kv2 hm

theorem lookupField_append (acc bs : List (String × Json)) (k : String) :
    lookupField (acc ++ bs) k
      = match lookupField acc k with
        | some v => some v
        | none => lookupField bs k := by
  induction acc with
  | nil => simp [lookupField]
  | cons kv acc ih =>
      obtain ⟨k1, w⟩ := kv
      by_cases h1 : k1 = k
      · simp [lookupField, h1]
      · simp [lookupField, h1, ih]

theorem setField_append_absent (acc : List (String × Json)) (k : String) (v : Json)
    (h : lookupField acc k = none) : setField acc k v = acc ++ [(k, v)] := by
  induction acc with
  | nil => simp [setField]
  | cons kv acc ih =>
      obtain ⟨k1, w⟩ := kv
      by_cases h1 : k1 = k
      · simp [lookupField, h1] at h
      · simp only [lookupField, h1, if_false] at h
        simp [setField, h1, ih h]

theorem objOfPairs_aux (fs : List (String × Json)) :
    ∀ acc, (∀ kv ∈ fs, lookupField acc kv.1 = none) → wfFields fs = true →
    List.foldl (fun acc kv => setField acc kv.1 kv.2) acc fs = acc ++ fs := by
  induction fs with
  | nil => intro acc _ _; simp
  | cons kv fs ih =>
      intro acc hacc hwf
      obtain ⟨k, v⟩ := kv
      rw [wfFields] at hwf
      simp only [Bool.and_eq_true, Option.isNone_iff_eq_none] at hwf
      obtain ⟨⟨hnone, _⟩, hwfs⟩ := hwf
      have hk : lookupField acc k = none := hacc (k, v) (by simp)
      rw [List.foldl_cons]
      rw [show setField acc k v = acc ++ [(k, v)] from setField_append_absent _ _ _ hk]
      rw [ih (acc ++ [(k, v)]) ?_ hwfs]
      · simp
      · intro kv2 hkv2
        rw [lookupField_append]
        rw [hacc kv2 (by simp [hkv2])]
        have hne : kv2.1 ≠ k := lookupField_none_forall fs k hnone kv2 hkv2
        simp [lookupField, Ne.symm hne]

theorem objOfPairs_wf (fs : List (String × Json)) (hwf : wfFields fs = true) :
    objOfPairs fs = fs := by
  unfold objOfPairs
  rw [objOfPairs_aux fs [] (by simp [lookupField]) hwf]
  simp

theorem escapeList_length_ge (s : List Char) : s.length ≤ (escapeList s).length := by
  induction s with
  | nil => simp [escapeList]
  | cons c cs ih =>
      show (c :: cs).length ≤ (escapeChar c ++ escapeList cs).length
      rw [List.length_append, List.length_cons]
      have h1 : 1 ≤ (escapeChar c).length := by
        unfold escapeChar
        split_ifs <;> simp
      omega

mutual

theorem fuelV_le_length : ∀ (v : Json), fuelV v ≤ (stringifyL v).length
  | .null => by simp [fuelV, stringifyL]
  | .bool true => by simp [fuelV, stringifyL]
  | .bool false => by simp [fuelV, stringifyL]
  | .int n => by
      have h : natStr n.natAbs ≠ [] := natStr_ne_nil _
      have h2 : 1 ≤ (natStr n.natAbs).length := by
        cases hc : natStr n.natAbs with
        | nil => exact absurd hc h
        | cons x xs => simp
      simp only [fuelV, stringifyL, intStr]
      split_ifs <;> simp
      omega
  | .str s => by
      have := escapeList_length_ge s.data
      simp only [fuelV, stringifyL]
      simp only [List.length_cons, List.length_append, List.length_singleton]
      omega
  | .arr [] => by simp [fuelV, fuelElems, stringifyL]
  | .arr (v :: vs) => by
      have h1 := fuelV_le_length v
      have h2 := fuelElems_le_length vs
      simp only [fuelV, fuelElems, stringifyL]
      simp only [List.length_cons, List.length_append, List.length_singleton]
      omega
  | .obj [] => by simp [fuelV, fuelFields, stringifyL]
  | .obj ((k, v) :: fs) => by
      have h1 := fuelV_le_length v
      have h2 := fuelFields_le_length fs
      have h3 := escapeList_length_ge k.data
      simp only [fuelV, fuelFields, stringifyL]
      simp only [List.length_cons, List.length_append, List.length_singleton]
      omega

theorem fuelElems_le_length : ∀ (vs : List Json), fuelElems vs ≤ (elemsStr vs).length
  | [] => by simp [fuelElems, elemsStr]
  | v :: vs => by
      have h1 := fuelV_le_length v
      have h2 := fuelElems_le_length vs
      simp only [fuelElems, elemsStr]
      simp only [List.length_cons, List.length_append]
      omega

theorem fuelFields_le_length : ∀ (fs : List (String × Json)),
    fuelFields fs ≤ (fieldsStr fs).length + 1
  | [] => by simp [fuelFields, fieldsStr]
  | (k, v) :: fs => by
      have h1 := fuelV_le_length v
      have h2 := fuelFields_le_length fs
      have h3 := escapeList_length_ge k.data
      simp only [fuelFields, fieldsStr]
      simp only [List.length_cons, List.length_append]
      omega

end

/-! ### The parser inverts the serializer -/

theorem parseV_number (fuel : Nat) (c : Char) (cs : List Char)
    (hd : c = '-' ∨ isDigitC c = true) :
    parseV (fuel + 1) (c :: cs) = parseNumber (c :: cs) := by
  have hbounds : c.toNat = 45 ∨ (48 ≤ c.toNat ∧ c.toNat ≤ 57) := by
    rcases hd with h | h
    · left
      rw [h]
      rfl
    · right
      exact isDigitC_bounds c h
  have hws : isWsC c = false := by
    unfold isWsC
    have e1 : (' ' : Char).toNat = 32 := rfl
    have e2 : ('\t' : Char).toNat = 9 := rfl
    have e3 : ('\n' : Char).toNat = 10 := rfl
    have e4 : ('\r' : Char).toNat = 13 := rfl
    simp only [Bool.or_eq_false_iff, decide_eq_false_iff_not]
    refine ⟨⟨⟨?_, ?_⟩, ?_⟩, ?_⟩ <;> refine char_ne_of_toNat_ne c _ ?_ <;> omega
  have hn : c ≠ 'n' := char_ne_of_toNat_ne c _ (by have : ('n' : Char).toNat = 110 := rfl; omega)
  have ht : c ≠ 't' := char_ne_of_toNat_ne c _ (by have : ('t' : Char).toNat = 116 := rfl; omega)
  have hf : c ≠ 'f' := char_ne_of_toNat_ne c _ (by have : ('f' : Char).toNat = 102 := rfl; omega)
  have hq : c ≠ '"' := char_ne_of_toNat_ne c _ (by have : ('"' : Char).toNat = 34 := rfl; omega)
  have hbra : c ≠ '[' := char_ne_of_toNat_ne c _ (by have : ('[' : Char).toNat = 91 := rfl; omega)
  have hbrc : c ≠ '{' := char_ne_of_toNat_ne c _ (by have : ('{' : Char).toNat = 123 := rfl; omega)
  rw [parseV.eq_def]
  simp only [skipWs_cons_not c cs hws]
  rw [if_neg hn, if_neg ht, if_neg hf, if_neg hq, if_neg hbra, if_neg hbrc]

theorem stringifyL_head (v : Json) :
    ∃ c cs', stringifyL v = c :: cs' ∧ isWsC c = false ∧ c ≠ ']' := by
  have hws_of : ∀ c : Char, (c.toNat = 45 ∨ (48 ≤ c.toNat ∧ c.toNat ≤ 57)) →
      isWsC c = false ∧ c ≠ ']' := by
    intro c hb
    constructor
    · unfold isWsC
      have e1 : (' ' : Char).toNat = 32 := rfl
      have e2 : ('\t' : Char).toNat = 9 := rfl
      have e3 : ('\n' : Char).toNat = 10 := rfl
      have e4 : ('\r' : Char).toNat = 13 := rfl
      simp only [Bool.or_eq_false_iff, decide_eq_false_iff_not]
      refine ⟨⟨⟨?_, ?_⟩, ?_⟩, ?_⟩ <;> refine char_ne_of_toNat_ne c _ ?_ <;> omega
    · exact char_ne_of_toNat_ne c _ (by have : (']' : Char).toNat = 93 := rfl; omega)
  cases v with
  | null => exact ⟨'n', _, rfl, by decide, by decide⟩
  | bool b =>
      cases b with
      | true => exact ⟨'t', _, rfl, by decide, by decide⟩
      | false => exact ⟨'f', _, rfl, by decide, by decide⟩
  | int n =>
      show ∃ c cs', intStr n = c :: cs' ∧ _
      unfold intStr
      split_ifs with hneg
      · exact ⟨'-', _, rfl, by decide, by decide⟩
      · obtain ⟨x, xs, hx⟩ : ∃ x xs, natStr n.natAbs = x :: xs := by
          cases hc : natStr n.natAbs with
          | nil => exact absurd hc (natStr_ne_nil _)
          | cons x xs => exact ⟨x, xs, rfl⟩
        have hxd := isDigitC_bounds x (natStr_all_digits _ x (by rw [hx]; simp))
        obtain ⟨hw, hne⟩ := hws_of x (Or.inr hxd)
        exact ⟨x, xs, hx, hw, hne⟩
  | str s => exact ⟨'"', _, rfl, by decide, by decide⟩
  | arr es =>
      cases es with
      | nil => exact ⟨'[', _, rfl, by decide, by decide⟩
      | cons v vs => exact ⟨'[', _, rfl, by decide, by decide⟩
  | obj fs =>
      cases fs with
      | nil => exact ⟨'{', _, rfl, by decide, by decide⟩
      | cons kv fs =>
          obtain ⟨k, w⟩ := kv
          exact ⟨'{', _, rfl, by decide, by decide⟩

theorem parseV_lbracket (fuel : Nat) (cs1 : List Char) :
    parseV (fuel + 1) ('[' :: cs1)
      = (match skipWs cs1 with
        | ']' :: r => some (.arr [], r)
        | cs2 => (parseElems fuel cs2).map (fun pr => (.arr pr.1, pr.2))) := by
  rw [parseV.eq_def]
  rw [skipWs_cons_not _ _ (by decide)]
  simp

theorem parseV_lbrace (fuel : Nat) (cs1 : List Char) :
    parseV (fuel + 1) ('{' :: cs1)
      = (match skipWs cs1 with
        | '}' :: r => some (.obj [], r)
        | cs2 => (parseFields fuel cs2).map (fun pr => (.obj (objOfPairs pr.1), pr.2))) := by
  rw [parseV.eq_def]
  rw [skipWs_cons_not _ _ (by decide)]
  simp

theorem parseElems_succ (fuel : Nat) (cs : List Char) :
    parseElems (fuel + 1) cs
      = (parseV fuel cs).bind (fun pr =>
          match skipWs pr.2 with
          | ',' :: r => (parseElems fuel r).map (fun qr => (pr.1 :: qr.1, qr.2))
          | ']' :: r => some ([pr.1], r)
          | _ => none) := by
  rw [parseElems.eq_def]

theorem parseFields_succ (fuel : Nat) (cs : List Char) :
    parseFields (fuel + 1) cs
      = (match skipWs cs with
        | '"' :: r =>
          (parseStrBody fuel r).bind (fun kr =>
            match skipWs kr.2 with
            | ':' :: r2 =>
              (parseV fuel r2).bind (fun vr =>
                match skipWs vr.2 with
                | ',' :: r3 => (parseFields fuel r3).map
                    (fun fr => ((String.mk kr.1, vr.1) :: fr.1, fr.2))
                | '}' :: r3 => some ([(String.mk kr.1, vr.1)], r3)
                | _ => none)
            | _ => none)
        | _ => none) := by
  rw [parseFields.eq_def]

theorem parseFields_quote (fuel : Nat) (r : List Char) :
    parseFields (fuel + 1) ('"' :: r)
      = (parseStrBody fuel r).bind (fun kr =>
          match skipWs kr.2 with
          | ':' :: r2 =>
            (parseV fuel r2).bind (fun vr =>
              match skipWs vr.2 with
              | ',' :: r3 => (parseFields fuel r3).map
                  (fun fr => ((String.mk kr.1, vr.1) :: fr.1, fr.2))
              | '}' :: r3 => some ([(String.mk kr.1, vr.1)], r3)
              | _ => none)
          | _ => none) := by
  rw [parseFields_succ]
  rw [skipWs_cons_not _ _ (by decide)]
  rfl

mutual

theorem parseV_rt : ∀ (v : Json) (rest : List Char) (fuel : Nat),
    wfJ v = true → fuelV v ≤ fuel → numBoundary rest →
    parseV fuel (stringifyL v ++ rest) = some (v, rest)
  | v, rest, 0, _, hfuel, _ => by
      exfalso
      cases v <;> rw [fuelV] at hfuel <;> omega
  | v, rest, fuel + 1, hwf, hfuel, hb => by
      cases v with
      | null =>
          rw [show stringifyL Json.null ++ rest = 'n' :: 'u' :: 'l' :: 'l' :: rest from rfl]
          rw [parseV.eq_def]
          rw [skipWs_cons_not _ _ (by decide)]
          simp
      | bool b =>
          cases b with
          | true =>
              rw [show stringifyL (Json.bool true) ++ rest
                = 't' :: 'r' :: 'u' :: 'e' :: rest from rfl]
              rw [parseV.eq_def]
              rw [skipWs_cons_not _ _ (by decide)]
              simp
          | false =>
              rw [show stringifyL (Json.bool false) ++ rest
                = 'f' :: 'a' :: 'l' :: 's' :: 'e' :: rest from rfl]
              rw [parseV.eq_def]
              rw [skipWs_cons_not _ _ (by decide)]
              simp
      | int n =>
          have hsplit : ∃ c cs', intStr n = c :: cs' ∧ (c = '-' ∨ isDigitC c = true) := by
            unfold intStr
            split_ifs with hneg
            · exact ⟨'-', _, rfl, Or.inl rfl⟩
            · obtain ⟨x, xs, hx⟩ : ∃ x xs, natStr n.natAbs = x :: xs := by
                cases hc : natStr n.natAbs with
                | nil => exact absurd hc (natStr_ne_nil _)
                | cons x xs => exact ⟨x, xs, rfl⟩
              exact ⟨x, xs, hx, Or.inr (natStr_all_digits _ x (by rw [hx]; simp))⟩
          obtain ⟨c, cs', hx, hd⟩ := hsplit
          show parseV (fuel + 1) (intStr n ++ rest) = some (Json.int n, rest)
          rw [hx, List.cons_append, parseV_number fuel c (cs' ++ rest) hd,
            ← List.cons_append, ← hx]
          exact parseNumber_intStr n rest hb
      | str s =>
          have hflat : stringifyL (Json.str s) ++ rest
              = '"' :: (escapeList s.data ++ ('"' :: rest)) := by
            show ('"' :: (escapeList s.data ++ ['"'])) ++ rest = _
            simp
          rw [hflat, parseV.eq_def]
          rw [skipWs_cons_not _ _ (by decide)]
          have hfs : s.data.length + 1 ≤ fuel := by
            rw [fuelV] at hfuel
            omega
          have hmk : String.mk s.data = s := by cases s; rfl
          simp [parseStrBody_escapeList s.data rest fuel hfs, hmk]
      | arr es =>
          cases es with
          | nil =>
              rw [show stringifyL (Json.arr []) ++ rest = '[' :: ']' :: rest from rfl]
              rw [parseV_lbracket]
              simp [skipWs, isWsC]
          | cons v vs =>
              have hwf' : wfElems (v :: vs) = true := hwf
              have hfuel' : fuelElems (v :: vs) ≤ fuel := by
                rw [fuelV] at hfuel
                omega
              have hflat : stringifyL (Json.arr (v :: vs)) ++ rest
                  = '[' :: (stringifyL v ++ (elemsStr vs ++ (']' :: rest))) := by
                show ('[' :: (stringifyL v ++ elemsStr vs ++ [']'])) ++ rest = _
                simp
              rw [hflat, parseV_lbracket]
              obtain ⟨c0, cs0, hx, hw0, hne0⟩ := stringifyL_head v
              rw [hx, List.cons_append, skipWs_cons_not _ _ hw0]
              have hmain := parseElems_rt v vs rest fuel hwf' hfuel'
              rw [hx, List.cons_append] at hmain
              split
              · rename_i r heq
                rw [List.cons.injEq] at heq
                exact absurd heq.1 hne0
              · rw [hmain]
                rfl
      | obj fs =>
          cases fs with
          | nil =>
              rw [show stringifyL (Json.obj []) ++ rest = '{' :: '}' :: rest from rfl]
              rw [parseV_lbrace]
              simp [skipWs, isWsC, objOfPairs]
          | cons kv fs =>
              obtain ⟨k, v⟩ := kv
              have hwf' : wfFields ((k, v) :: fs) = true := hwf
              have hfuel' : fuelFields ((k, v) :: fs) ≤ fuel := by
                rw [fuelV] at hfuel
                omega
              have hflat : stringifyL (Json.obj ((k, v) :: fs)) ++ rest
                  = '{' :: ('"' :: (escapeList k.data
                      ++ ('"' :: (':' :: (stringifyL v
                        ++ (fieldsStr fs ++ ('}' :: rest))))))) := by
                show ('{' :: ('"' :: (escapeList k.data ++ '"' :: ':' :: stringifyL v)
                  ++ fieldsStr fs ++ ['}'])) ++ rest = _
                simp
              rw [hflat, parseV_lbrace]
              rw [skipWs_cons_not _ _ (by decide)]
              have hmain := parseFields_rt k v fs rest fuel hwf' hfuel'
              have hobj : objOfPairs ((k, v) :: fs) = (k, v) :: fs :=
                objOfPairs_wf _ hwf'
              simp [hmain, hobj]

theorem parseElems_rt : ∀ (v : Json) (vs : List Json) (rest : List Char) (fuel : Nat),
    wfElems (v :: vs) = true → fuelElems (v :: vs) ≤ fuel →
    parseElems fuel (stringifyL v ++ (elemsStr vs ++ (']' :: rest)))
      = some (v :: vs, rest)
  | v, vs, rest, 0, _, hfuel => by
      exfalso
      rw [fuelElems] at hfuel
      omega
  | v, vs, rest, fuel + 1, hwf, hfuel => by
      have hwfv : wfJ v = true ∧ wfElems vs = true := by
        rw [wfElems] at hwf
        simpa using hwf
      have hfv : fuelV v ≤ fuel := by
        rw [fuelElems] at hfuel
        omega
      have hbnd : numBoundary (elemsStr vs ++ (']' :: rest)) := by
        cases vs with
        | nil =>
            show numBoundary (']' :: rest)
            exact ⟨by decide, by decide, by decide, by decide⟩
        | cons v2 vs2 =>
            show numBoundary (',' :: _)
            exact ⟨by decide, by decide, by decide, by decide⟩
      rw [parseElems_succ]
      rw [parseV_rt v (elemsStr vs ++ (']' :: rest)) fuel hwfv.1 hfv hbnd]
      simp only [Option.some_bind]
      cases vs with
      | nil =>
          show (match skipWs (elemsStr [] ++ (']' :: rest)) with
            | ',' :: r => (parseElems fuel r).map (fun qr => (v :: qr.1, qr.2))
            | ']' :: r => some ([v], r)
            | _ => none) = some ([v], rest)
          simp [elemsStr, skipWs, isWsC]
      | cons v2 vs2 =>
          have hflat : elemsStr (v2 :: vs2) ++ (']' :: rest)
              = ',' :: (stringifyL v2 ++ (elemsStr vs2 ++ (']' :: rest))) := by
            show (',' :: (stringifyL v2 ++ elemsStr vs2)) ++ _ = _
            simp
          rw [hflat]
          rw [skipWs_cons_not _ _ (by decide)]
          have hwf2 : wfElems (v2 :: vs2) = true := hwfv.2
          have hf2 : fuelElems (v2 :: vs2) ≤ fuel := by
            rw [fuelElems] at hfuel
            omega
          have hmain := parseElems_rt v2 vs2 rest fuel hwf2 hf2
          simp [hmain]

theorem parseFields_rt : ∀ (k : String) (v : Json) (fs : List (String × Json))
    (rest : List Char) (fuel : Nat),
    wfFields ((k, v) :: fs) = true → fuelFields ((k, v) :: fs) ≤ fuel →
    parseFields fuel ('"' :: (escapeList k.data
        ++ ('"' :: (':' :: (stringifyL v ++ (fieldsStr fs ++ ('}' :: rest)))))))
      = some ((k, v) :: fs, rest)
  | k, v, fs, rest, 0, _, hfuel => by
      exfalso
      rw [fuelFields] at hfuel
      omega
  | k, v, fs, rest, fuel + 1, hwf, hfuel => by
      have hwfv : wfJ v = true ∧ wfFields fs = true := by
        rw [wfFields] at hwf
        simp only [Bool.and_eq_true] at hwf
        exact ⟨hwf.1.2, hwf.2⟩
      have hfv : fuelV v ≤ fuel := by
        rw [fuelFields] at hfuel
        omega
      have hkey : k.data.length + 1 ≤ fuel := by
        rw [fuelFields] at hfuel
        omega
      have hbnd : numBoundary (fieldsStr fs ++ ('}' :: rest)) := by
        cases fs with
        | nil =>
            show numBoundary ('}' :: rest)
            exact ⟨by decide, by decide, by decide, by decide⟩
        | cons kv2 fs2 =>
            obtain ⟨k2, v2⟩ := kv2
            show numBoundary (',' :: _)
            exact ⟨by decide, by decide, by decide, by decide⟩
      have hmk : String.mk k.data = k := by cases k; rfl
      rw [parseFields_quote]
      rw [parseStrBody_escapeList k.data _ fuel hkey]
      have hV := parseV_rt v (fieldsStr fs ++ ('}' :: rest)) fuel hwfv.1 hfv hbnd
      cases fs with
      | nil =>
          simp only [fieldsStr, List.nil_append] at hV
          simp [fieldsStr, skipWs, isWsC, hV, hmk]
      | cons kv2 fs2 =>
          obtain ⟨k2, v2⟩ := kv2
          have hflat : fieldsStr ((k2, v2) :: fs2) ++ ('}' :: rest)
              = ',' :: ('"' :: (escapeList k2.data
                  ++ ('"' :: (':' :: (stringifyL v2
                    ++ (fieldsStr fs2 ++ ('}' :: rest))))))) := by
            show (',' :: ('"' :: (escapeList k2.data ++ '"' :: ':' :: stringifyL v2)
              ++ fieldsStr fs2)) ++ _ = _
            simp
          have hwf2 : wfFields ((k2, v2) :: fs2) = true := hwfv.2
          have hf2 : fuelFields ((k2, v2) :: fs2) ≤ fuel := by
            rw [fuelFields] at hfuel
            omega
          have hmain := parseFields_rt k2 v2 fs2 rest fuel hwf2 hf2
          rw [hflat] at hV
          simp [hV, hflat, skipWs, isWsC, hmain, hmk]

end

theorem jsonParseL_stringifyL (v : Json) (hwf : wfJ v = true) :
    jsonParseL (stringifyL v) = some v := by
  unfold jsonParseL
  have hfv : fuelV v ≤ (stringifyL v).length + 1 :=
    le_trans (fuelV_le_length v) (by omega)
  have h := parseV_rt v [] ((stringifyL v).length + 1) hwf hfv trivial
  rw [List.append_nil] at h
  rw [h]
  simp [skipWs]

/-! ### Transforms preserve well-formedness -/

theorem wfFields_setField (fs : List (String × Json)) (k : String) (v : Json)
    (h : wfFields fs = true) (hv : wfJ v = true) :
    wfFields (setField fs k v) = true := by
  induction fs with
  | nil => simp [setField, wfFields, lookupField, hv, wfJ]
  | cons kv fs ih =>
      obtain ⟨k1, w⟩ := kv
      rw [wfFields] at h
      simp only [Bool.and_eq_true, Option.isNone_iff_eq_none] at h
      obtain ⟨⟨hn, hw⟩, hfs⟩ := h
      by_cases h1 : k1 = k
      · subst h1
        rw [show setField ((k1, w) :: fs) k1 v = (k1, v) :: fs from by simp [setField]]
        rw [wfFields]
        simp [hn, hv, hfs]
      · rw [show setField ((k1, w) :: fs) k v = (k1, w) :: setField fs k v from by
          simp [setField, h1]]
        rw [wfFields]
        simp only [Bool.and_eq_true, Option.isNone_iff_eq_none]
        exact ⟨⟨by rw [lookupField_setField_ne _ _ _ _ h1]; exact hn, hw⟩, ih hfs⟩

theorem wfFields_updateField (fs : List (String × Json)) (k : String) (f : Json → Json)
    (h : wfFields fs = true) (hf : ∀ w, wfJ w = true → wfJ (f w) = true) :
    wfFields (updateField fs k f) = true := by
  induction fs with
  | nil => simp [updateField, wfFields]
  | cons kv fs ih =>
      obtain ⟨k1, w⟩ := kv
      rw [wfFields] at h
      simp only [Bool.and_eq_true, Option.isNone_iff_eq_none] at h
      obtain ⟨⟨hn, hw⟩, hfs⟩ := h
      by_cases h1 : k1 = k
      · rw [show updateField ((k1, w) :: fs) k f = (k1, f w) :: fs from by
          simp [updateField, h1]]
        rw [wfFields]
        simp [hn, hf w hw, hfs]
      · rw [show updateField ((k1, w) :: fs) k f = (k1, w) :: updateField fs k f from by
          simp [updateField, h1]]
        rw [wfFields]
        simp only [Bool.and_eq_true, Option.isNone_iff_eq_none]
        refine ⟨⟨?_, hw⟩, ih hfs⟩
        by_cases h2 : k1 = k
        · exact absurd h2 h1
        · rw [lookupField_updateField_ne _ _ _ _ (Ne.symm (fun he => h1 he.symm))]
          exact hn

theorem wfJ_set (a : Json) (k : String) (v : Json) (ha : wfJ a = true)
    (hv : wfJ v = true) : wfJ (a.set k v) = true := by
  cases a with
  | obj fs =>
      rw [Json.set]
      rw [wfJ] at ha ⊢
      exact wfFields_setField fs k v ha hv
  | null => exact ha
  | bool b => exact ha
  | int n => exact ha
  | str s => exact ha
  | arr es => exact ha

theorem wfJ_updF (a : Json) (k : String) (f : Json → Json) (ha : wfJ a = true)
    (hf : ∀ w, wfJ w = true → wfJ (f w) = true) : wfJ (updF a k f) = true := by
  cases a with
  | obj fs =>
      rw [updF]
      rw [wfJ] at ha ⊢
      exact wfFields_updateField fs k f ha hf
  | null => exact ha
  | bool b => exact ha
  | int n => exact ha
  | str s => exact ha
  | arr es => exact ha

theorem wfJ_mutAtt (c : Json) (h : wfJ c = true) : wfJ (mutAtt c) = true := by
  unfold mutAtt
  refine wfJ_updF c _ _ h ?_
  intro p hp
  refine wfJ_updF p _ _ hp ?_
  intro a ha
  exact wfJ_set a _ _ ha rfl

theorem wfJ_mutPay (c : Json) (h : wfJ c = true) : wfJ (mutPay c) = true := by
  unfold mutPay
  refine wfJ_updF c _ _ h ?_
  intro p hp
  refine wfJ_updF p _ _ hp ?_
  intro a ha
  exact wfJ_set a _ _ ha rfl

theorem mockCompany_val_cases (c : Json) :
    (mockCompany c).1 = c ∨ (mockCompany c).1 = mutAtt c ∨
    (mockCompany c).1 = mutPay c ∨ (mockCompany c).1 = mutPay (mutAtt c) := by
  cases c with
  | null => exact Or.inl rfl
  | bool b => simp [mockCompany, optChain, propGet]
  | int n => simp [mockCompany, optChain, propGet]
  | str s => simp [mockCompany, optChain, propGet]
  | arr es => simp [mockCompany, optChain, propGet]
  | obj fs =>
      cases hA : optChain (Json.obj fs) "permissions" "attendance" with
      | none =>
          cases hP : optChain (Json.obj fs) "permissions" "payroll" with
          | none => simp [mockCompany, hA, hP]
          | some pay =>
              by_cases ht : truthy pay = true
              · simp [mockCompany, hA, hP, ht]
              · have ht' : truthy pay = false := by simpa using ht
                simp [mockCompany, hA, hP, ht']
      | some a =>
          by_cases hta : truthy a = true
          · cases hP : optChain (mutAtt (Json.obj fs)) "permissions" "payroll" with
            | none => simp [mockCompany, hA, hta, hP]
            | some pay =>
                by_cases ht : truthy pay = true
                · simp [mockCompany, hA, hta, hP, ht]
                · have ht' : truthy pay = false := by simpa using ht
                  simp [mockCompany, hA, hta, hP, ht']
          · have hta' : truthy a = false := by simpa using hta
            cases hP : optChain (Json.obj fs) "permissions" "payroll" with
            | none => simp [mockCompany, hA, hta', hP]
            | some pay =>
                by_cases ht : truthy pay = true
                · simp [mockCompany, hA, hta', hP, ht]
                · have ht' : truthy pay = false := by simpa using ht
                  simp [mockCompany, hA, hta', hP, ht']

theorem wfJ_mockCompany (c : Json) (h : wfJ c = true) :
    wfJ (mockCompany c).1 = true := by
  rcases mockCompany_val_cases c with hv | hv | hv | hv <;> rw [hv]
  · exact h
  · exact wfJ_mutAtt c h
  · exact wfJ_mutPay c h
  · exact wfJ_mutPay _ (wfJ_mutAtt c h)

theorem wfElems_mockCompanyLoop (es : List Json) (h : wfElems es = true) :
    wfElems (mockCompanyLoop es).1 = true := by
  induction es with
  | nil => simpa [mockCompanyLoop] using h
  | cons c cs ih =>
      rw [wfElems] at h
      simp only [Bool.and_eq_true] at h
      by_cases ht : (mockCompany c).2 = true
      · simp only [mockCompanyLoop, ht, if_true]
        rw [wfElems]
        simp [wfJ_mockCompany c h.1, h.2]
      · have ht' : (mockCompany c).2 = false := by simpa using ht
        simp only [mockCompanyLoop, ht', Bool.false_eq_true, if_false]
        rw [wfElems]
        simp [wfJ_mockCompany c h.1, ih h.2]

theorem wfJ_mock_companies (v : Json) (h : wfJ v = true) :
    wfJ (mock_companies v).1 = true := by
  cases v with
  | arr es =>
      cases es with
      | nil => simpa [mock_companies] using h
      | cons c cs =>
          rw [wfJ] at h
          have hl := wfElems_mockCompanyLoop (c :: cs) h
          by_cases ht : (mockCompanyLoop (c :: cs)).2 = true
          · simp only [mock_companies, List.length_cons, Nat.zero_lt_succ, if_true, ht]
            simpa [wfJ] using hl
          · have ht' : (mockCompanyLoop (c :: cs)).2 = false := by simpa using ht
            simp only [mock_companies, List.length_cons, Nat.zero_lt_succ, if_true, ht']
            simpa [wfJ] using hl
  | null => exact h
  | bool b => simpa [mock_companies] using h
  | int n => simpa [mock_companies] using h
  | str s => simpa [mock_companies] using h
  | obj fs => simpa [mock_companies] using h

theorem mockPolicy_val_cases (p : Json) :
    (mockPolicy p).1 = p ∨
    ((mockPolicy p).1 = p.set "authorize" (Json.bool true) ∧ keyMatchB p = true) := by
  cases p with
  | null => exact Or.inl rfl
  | bool b => simp [mockPolicy, keyMatchB, propGet]
  | int n => simp [mockPolicy, keyMatchB, propGet]
  | str s => simp [mockPolicy, keyMatchB, propGet]
  | arr es => simp [mockPolicy, keyMatchB, propGet]
  | obj fs =>
      by_cases hk : keyMatchB (Json.obj fs) = true
      · by_cases ha : truthyO (propGet (Json.obj fs) "authorize") = true
        · simp [mockPolicy, hk, ha]
        · have ha' : truthyO (propGet (Json.obj fs) "authorize") = false := by simpa using ha
          simp [mockPolicy, hk, ha']
      · have hk' : keyMatchB (Json.obj fs) = false := by simpa using hk
        simp [mockPolicy, hk']

theorem wfJ_mockPolicy (p : Json) (h : wfJ p = true) : wfJ (mockPolicy p).1 = true := by
  rcases mockPolicy_val_cases p with hv | ⟨hv, _⟩ <;> rw [hv]
  · exact h
  · exact wfJ_set p _ _ h rfl

theorem wfElems_mockPolicyLoop (ps : List Json) (h : wfElems ps = true) :
    wfElems (mockPolicyLoop ps).1 = true := by
  induction ps with
  | nil => simpa [mockPolicyLoop] using h
  | cons p ps ih =>
      rw [wfElems] at h
      simp only [Bool.and_eq_true] at h
      by_cases ht : (mockPolicy p).2.2 = true
      · simp only [mockPolicyLoop, ht, if_true]
        rw [wfElems]
        simp [wfJ_mockPolicy p h.1, h.2]
      · have ht' : (mockPolicy p).2.2 = false := by simpa using ht
        simp only [mockPolicyLoop, ht', Bool.false_eq_true, if_false]
        rw [wfElems]
        simp [wfJ_mockPolicy p h.1, ih h.2]

theorem wfJ_mock_authorize_policies (v : Json) (h : wfJ v = true) :
    wfJ (mock_authorize_policies v).1 = true := by
  cases v with
  | arr es =>
      cases es with
      | nil => simpa [mock_authorize_policies] using h
      | cons p ps =>
          rw [wfJ] at h
          have hl := wfElems_mockPolicyLoop (p :: ps) h
          simp only [mock_authorize_policies, List.length_cons, Nat.zero_lt_succ, if_true]
          simpa [wfJ] using hl
  | null => exact h
  | bool b => simpa [mock_authorize_policies] using h
  | int n => simpa [mock_authorize_policies] using h
  | str s => simpa [mock_authorize_policies] using h
  | obj fs => simpa [mock_authorize_policies] using h

/-! ### The transforms touch only their targeted fields -/

theorem eraseAtt_mutAtt (c : Json) : eraseAtt (mutAtt c) = eraseAtt c := by
  unfold eraseAtt mutAtt
  rw [updF_updF]
  refine updF_congr _ _ _ _ ?_
  intro p
  rw [updF_updF]
  refine updF_congr _ _ _ _ ?_
  intro a
  exact delKey_set a _ _

theorem erasePay_mutPay (c : Json) : erasePay (mutPay c) = erasePay c := by
  unfold erasePay mutPay
  rw [updF_updF]
  refine updF_congr _ _ _ _ ?_
  intro p
  rw [updF_updF]
  refine updF_congr _ _ _ _ ?_
  intro a
  exact delKey_set a _ _

theorem eraseAtt_mutPay (c : Json) : eraseAtt (mutPay c) = mutPay (eraseAtt c) := by
  unfold eraseAtt mutPay
  rw [updF_updF, updF_updF]
  refine updF_congr _ _ _ _ ?_
  intro p
  exact updF_comm p _ _ _ _ (by decide)

theorem eraseCompanyElem_mockCompany (c : Json) :
    eraseCompanyElem (mockCompany c).1 = eraseCompanyElem c := by
  rcases mockCompany_val_cases c with hv | hv | hv | hv <;> rw [hv] <;>
    unfold eraseCompanyElem
  · rw [eraseAtt_mutAtt]
  · rw [eraseAtt_mutPay, erasePay_mutPay]
  · rw [eraseAtt_mutPay, erasePay_mutPay, eraseAtt_mutAtt]

theorem eraseList_mockCompanyLoop (es : List Json) :
    (mockCompanyLoop es).1.map eraseCompanyElem = es.map eraseCompanyElem := by
  induction es with
  | nil => simp [mockCompanyLoop]
  | cons c cs ih =>
      by_cases ht : (mockCompany c).2 = true
      · simp only [mockCompanyLoop, ht, if_true]
        simp [eraseCompanyElem_mockCompany c]
      · have ht' : (mockCompany c).2 = false := by simpa using ht
        simp only [mockCompanyLoop, ht', Bool.false_eq_true, if_false]
        simp [eraseCompanyElem_mockCompany c, ih]

theorem eraseCompanies_mock_companies (v : Json) :
    eraseCompanies (mock_companies v).1 = eraseCompanies v := by
  cases v with
  | arr es =>
      cases es with
      | nil => simp [mock_companies]
      | cons c cs =>
          have hl := eraseList_mockCompanyLoop (c :: cs)
          by_cases ht : (mockCompanyLoop (c :: cs)).2 = true
          · simp only [mock_companies, List.length_cons, Nat.zero_lt_succ, if_true, ht]
            simp [eraseCompanies, hl]
          · have ht' : (mockCompanyLoop (c :: cs)).2 = false := by simpa using ht
            simp only [mock_companies, List.length_cons, Nat.zero_lt_succ, if_true, ht']
            simp [eraseCompanies, hl]
  | null => rfl
  | bool b => rfl
  | int n => rfl
  | str s => rfl
  | obj fs => rfl

theorem keyMatchB_obj_of_set (p : Json) (v : Json) :
    keyMatchB (p.set "authorize" v) = keyMatchB p := keyMatchB_set_authorize p v

theorem erasePolicyElem_mockPolicy (p : Json) :
    erasePolicyElem (mockPolicy p).1 = erasePolicyElem p := by
  rcases mockPolicy_val_cases p with hv | ⟨hv, hk⟩ <;> rw [hv]
  unfold erasePolicyElem
  rw [keyMatchB_set_authorize, if_pos hk, if_pos hk]
  exact delKey_set p _ _

theorem eraseList_mockPolicyLoop (ps : List Json) :
    (mockPolicyLoop ps).1.map erasePolicyElem = ps.map erasePolicyElem := by
  induction ps with
  | nil => simp [mockPolicyLoop]
  | cons p ps ih =>
      by_cases ht : (mockPolicy p).2.2 = true
      · simp only [mockPolicyLoop, ht, if_true]
        simp [erasePolicyElem_mockPolicy p]
      · have ht' : (mockPolicy p).2.2 = false := by simpa using ht
        simp only [mockPolicyLoop, ht', Bool.false_eq_true, if_false]
        simp [erasePolicyElem_mockPolicy p, ih]

theorem erasePolicies_mock_authorize_policies (v : Json) :
    erasePolicies (mock_authorize_policies v).1 = erasePolicies v := by
  cases v with
  | arr es =>
      cases es with
      | nil => simp [mock_authorize_policies]
      | cons p ps =>
          have hl := eraseList_mockPolicyLoop (p :: ps)
          simp only [mock_authorize_policies, List.length_cons, Nat.zero_lt_succ, if_true]
          simp [erasePolicies, hl]
  | null => rfl
  | bool b => rfl
  | int n => rfl
  | str s => rfl
  | obj fs => rfl

/-! ### The transforms force the targeted flags -/

theorem mockCompany_val_att (c a : Json)
    (hA : optChain c "permissions" "attendance" = some a) (hta : truthy a = true) :
    (mockCompany c).1 = mutAtt c ∨ (mockCompany c).1 = mutPay (mutAtt c) := by
  cases c with
  | null => simp [optChain, propGet] at hA
  | bool b => simp [optChain, propGet] at hA
  | int n => simp [optChain, propGet] at hA
  | str s => simp [optChain, propGet] at hA
  | arr es => simp [optChain, propGet] at hA
  | obj fs =>
      cases hP : optChain (mutAtt (Json.obj fs)) "permissions" "payroll" with
      | none => simp [mockCompany, hA, hta, hP]
      | some pay =>
          by_cases ht : truthy pay = true
          · simp [mockCompany, hA, hta, hP, ht]
          · have ht' : truthy pay = false := by simpa using ht
            simp [mockCompany, hA, hta, hP, ht']

theorem mockCompany_att_after (c a : Json)
    (hA : optChain c "permissions" "attendance" = some a) (hta : truthy a = true) :
    optChain (mockCompany c).1 "permissions" "attendance"
      = some (a.set "approve" (Json.bool true)) := by
  rcases mockCompany_val_att c a hA hta with hv | hv <;> rw [hv]
  · rw [optChain_mutAtt_att, hA]
    rfl
  · rw [optChain_mutPay_att, optChain_mutAtt_att, hA]
    rfl

theorem mockCompany_val_pay (c a : Json)
    (hP : optChain c "permissions" "payroll" = some a) (ht : truthy a = true) :
    (mockCompany c).1 = mutPay c ∨ (mockCompany c).1 = mutPay (mutAtt c) := by
  cases c with
  | null => simp [optChain, propGet] at hP
  | bool b => simp [optChain, propGet] at hP
  | int n => simp [optChain, propGet] at hP
  | str s => simp [optChain, propGet] at hP
  | arr es => simp [optChain, propGet] at hP
  | obj fs =>
      cases hA : optChain (Json.obj fs) "permissions" "attendance" with
      | none => simp [mockCompany, hA, hP, ht]
      | some a2 =>
          by_cases hta : truthy a2 = true
          · have hP' : optChain (mutAtt (Json.obj fs)) "permissions" "payroll" = some a := by
              rw [optChain_mutAtt_pay]
              exact hP
            simp [mockCompany, hA, hta, hP', ht]
          · have hta' : truthy a2 = false := by simpa using hta
            simp [mockCompany, hA, hta', hP, ht]

theorem mockCompany_pay_after (c a : Json)
    (hP : optChain c "permissions" "payroll" = some a) (ht : truthy a = true) :
    optChain (mockCompany c).1 "permissions" "payroll"
      = some (a.set "edit_supplements" (Json.bool true)) := by
  rcases mockCompany_val_pay c a hP ht with hv | hv <;> rw [hv]
  · rw [optChain_mutPay_pay, hP]
    rfl
  · rw [optChain_mutPay_pay, optChain_mutAtt_pay, hP]
    rfl

theorem mockCompany_compOK (c : Json) : compOK c (mockCompany c).1 := by
  constructor
  · intro a w hA hw
    obtain ⟨afs, rfl⟩ : ∃ afs, a = Json.obj afs := by
      cases a with
      | obj afs => exact ⟨afs, rfl⟩
      | null => simp [propGet] at hw
      | bool b => simp [propGet] at hw
      | int n => simp [propGet] at hw
      | str s => simp [propGet] at hw
      | arr es => simp [propGet] at hw
    refine ⟨(Json.obj afs).set "approve" (Json.bool true),
      mockCompany_att_after c _ hA rfl, ?_⟩
    exact propGet_set_obj afs _ _
  · intro a w hP hw
    obtain ⟨afs, rfl⟩ : ∃ afs, a = Json.obj afs := by
      cases a with
      | obj afs => exact ⟨afs, rfl⟩
      | null => simp [propGet] at hw
      | bool b => simp [propGet] at hw
      | int n => simp [propGet] at hw
      | str s => simp [propGet] at hw
      | arr es => simp [propGet] at hw
    refine ⟨(Json.obj afs).set "edit_supplements" (Json.bool true),
      mockCompany_pay_after c _ hP rfl, ?_⟩
    exact propGet_set_obj afs _ _

theorem mockCompanyLoop_forall (es : List Json)
    (h : (mockCompanyLoop es).2 = false) :
    List.Forall₂ compOK es (mockCompanyLoop es).1 := by
  induction es with
  | nil => simp [mockCompanyLoop]
  | cons c cs ih =>
      by_cases ht : (mockCompany c).2 = true
      · simp [mockCompanyLoop, ht] at h
      · have ht' : (mockCompany c).2 = false := by simpa using ht
        simp only [mockCompanyLoop, ht', Bool.false_eq_true, if_false] at h ⊢
        exact List.Forall₂.cons (mockCompany_compOK c) (ih h)

theorem compTargeted_mock_companies (v : Json) (h : (mock_companies v).2.1 = false) :
    compTargeted v (mock_companies v).1 := by
  cases v with
  | arr es =>
      cases es with
      | nil => simp [mock_companies, compTargeted]
      | cons c cs =>
          by_cases ht : (mockCompanyLoop (c :: cs)).2 = true
          · simp [mock_companies, ht] at h
          · have ht' : (mockCompanyLoop (c :: cs)).2 = false := by simpa using ht
            simp only [mock_companies, List.length_cons, Nat.zero_lt_succ, if_true, ht']
            exact mockCompanyLoop_forall (c :: cs) ht'
  | null => simp [mock_companies, compTargeted]
  | bool b => simp [mock_companies, compTargeted]
  | int n => simp [mock_companies, compTargeted]
  | str s => simp [mock_companies, compTargeted]
  | obj fs => simp [mock_companies, compTargeted]

theorem mem_contains_string (s : String) (l : List String) (h : s ∈ l) :
    l.contains s = true := by
  rw [List.contains_eq_any_beq]
  exact List.any_eq_true.mpr ⟨s, h, by simp⟩

theorem mockPolicy_polOK (p : Json) : polOK p (mockPolicy p).1 := by
  intro s w hkey hmem hauth
  obtain ⟨fs, rfl⟩ : ∃ fs, p = Json.obj fs := by
    cases p with
    | obj fs => exact ⟨fs, rfl⟩
    | null => simp [propGet] at hkey
    | bool b => simp [propGet] at hkey
    | int n => simp [propGet] at hkey
    | str s2 => simp [propGet] at hkey
    | arr es => simp [propGet] at hkey
  have hk : keyMatchB (Json.obj fs) = true := by
    unfold keyMatchB
    rw [hkey]
    exact mem_contains_string s _ hmem
  by_cases hw : truthy w = true
  · have hto : truthyO (some w) = true := hw
    simp [mockPolicy, hk, hauth, hto, hw]
  · have hw' : truthy w = false := by simpa using hw
    have hto : truthyO (some w) = false := hw'
    simp [mockPolicy, hk, hauth, hto, hw', propGet_set_obj]

theorem mockPolicyLoop_forall (ps : List Json)
    (h : (mockPolicyLoop ps).2.2 = false) :
    List.Forall₂ polOK ps (mockPolicyLoop ps).1 := by
  induction ps with
  | nil => simp [mockPolicyLoop]
  | cons p ps ih =>
      by_cases ht : (mockPolicy p).2.2 = true
      · simp [mockPolicyLoop, ht] at h
      · have ht' : (mockPolicy p).2.2 = false := by simpa using ht
        simp only [mockPolicyLoop, ht', Bool.false_eq_true, if_false] at h ⊢
        exact List.Forall₂.cons (mockPolicy_polOK p) (ih h)

theorem polTargeted_mock_authorize_policies (v : Json)
    (h : (mock_authorize_policies v).2.1 = false) :
    polTargeted v (mock_authorize_policies v).1 := by
  cases v with
  | arr es =>
      cases es with
      | nil => simp [mock_authorize_policies, polTargeted]
      | cons p ps =>
          simp only [mock_authorize_policies, List.length_cons, Nat.zero_lt_succ,
            if_true] at h ⊢
          exact mockPolicyLoop_forall (p :: ps) h
  | null => simp [mock_authorize_policies, polTargeted]
  | bool b => simp [mock_authorize_policies, polTargeted]
  | int n => simp [mock_authorize_policies, polTargeted]
  | str s => simp [mock_authorize_policies, polTargeted]
  | obj fs => simp [mock_authorize_policies, polTargeted]

/-! ### Behavior of `mocker` by URL classification -/

theorem contains_false_of_not_mem (l : List String) (s : String) (h : ¬ s ∈ l) :
    l.contains s = false := by
  rw [List.contains_eq_any_beq, List.any_eq_false]
  intro x hx
  simp only [beq_iff_eq]
  intro he
  exact h (he ▸ hx)

theorem mocker_ignored (url : String) (h : url ∈ NOT_INTERESTING_URLS)
    (chunks : List (List Nat)) :
    mocker url chunks = ⟨chunks.flatten, [], false, 0, 0, 0⟩ := by
  unfold mocker
  rw [if_pos (mem_contains_string url _ h)]

theorem handle_mocking_default (url : String) (v : Json)
    (h1 : url ≠ "https://api.factorialhr.com/companies")
    (h2 : url ≠ "https://api.factorialhr.com/permissions/permissions/authorize_policies") :
    handle_mocking url v = ⟨v, false, [.noMocker url v], false⟩ := by
  unfold handle_mocking
  rw [if_neg h1, if_neg h2]

theorem not_mem_interesting_ne (url : String) (h : ¬ url ∈ INTERESTING_URLS) :
    url ≠ "https://api.factorialhr.com/companies" ∧
    url ≠ "https://api.factorialhr.com/permissions/permissions/authorize_policies" := by
  constructor <;> intro he <;> subst he <;> exact h (by simp [INTERESTING_URLS])

theorem mocker_unknown_parsed (url : String) (c : List Nat) (rest : List (List Nat))
    (v : Json) (h1 : ¬ url ∈ INTERESTING_URLS) (h2 : ¬ url ∈ NOT_INTERESTING_URLS)
    (hv : jsonParseL (utf8DecodeStream c) = some v) :
    mocker url (c :: rest)
      = ⟨utf8Encode (stringifyL v) ++ rest.flatten, [.noMocker url v], true, 1, 1, 0⟩ := by
  have hc : NOT_INTERESTING_URLS.contains url = false :=
    contains_false_of_not_mem _ _ h2
  obtain ⟨hu1, hu2⟩ := not_mem_interesting_ne url h1
  unfold mocker
  rw [hc]
  simp only [Bool.false_eq_true, if_false]
  rw [hv]
  simp [handle_mocking_default url v hu1 hu2]

theorem mocker_unparsed (url : String) (c : List Nat) (rest : List (List Nat))
    (h2 : ¬ url ∈ NOT_INTERESTING_URLS)
    (hv : jsonParseL (utf8DecodeStream c) = none) :
    mocker url (c :: rest)
      = ⟨utf8Encode (utf8DecodeStream c) ++ rest.flatten, [], true, 1, 1, 0⟩ := by
  have hc : NOT_INTERESTING_URLS.contains url = false :=
    contains_false_of_not_mem _ _ h2
  unfold mocker
  rw [hc]
  simp only [Bool.false_eq_true, if_false]
  rw [hv]

/-! ### The claims -/

/-- C1 (counterexample): the pass-through path is not byte-identical for every
input byte sequence.  For the intercepted companies endpoint and the single
non-UTF-8 byte 0xFF, the decoded body (one replacement character) is not valid
JSON, and the bytes delivered downstream are the UTF-8 encoding of U+FFFD,
not the original byte. -/
theorem c1_counterexample :
    jsonParseL (utf8DecodeStream [0xFF]) = none ∧
    (mocker "https://api.factorialhr.com/companies" [[0xFF]]).bytes
      = [0xEF, 0xBF, 0xBD] ∧
    (mocker "https://api.factorialhr.com/companies" [[0xFF]]).bytes ≠ [0xFF] := by
  refine ⟨rfl, by decide, by decide⟩

/-- C1 (amended): for every intercepted response delivered as a single chunk
whose bytes are valid, complete UTF-8 (the encoding of a scalar-value string)
and whose decoded text is not valid JSON, the bytes delivered downstream are
byte-identical to the bytes received upstream. -/
theorem c1_passthrough_amended (url : String) (s : List Char)
    (h : ¬ url ∈ NOT_INTERESTING_URLS) (hp : jsonParseL s = none) :
    (mocker url [utf8Encode s]).bytes = utf8Encode s := by
  have hd : utf8DecodeStream (utf8Encode s) = s := utf8Decode_encode s
  have := mocker_unparsed url (utf8Encode s) [] h (by rw [hd]; exact hp)
  rw [this, hd]
  simp

/-- Witness for C1 (amended) at the companies URL and the body "hello". -/
theorem c1_passthrough_amended_witness :
    ¬ "https://api.factorialhr.com/companies" ∈ NOT_INTERESTING_URLS ∧
    jsonParseL ("hello".data) = none ∧
    (mocker "https://api.factorialhr.com/companies"
      [utf8Encode ("hello".data)]).bytes = utf8Encode ("hello".data) :=
  ⟨by decide, rfl,
    c1_passthrough_amended "https://api.factorialhr.com/companies" ("hello".data)
      (by decide) rfl⟩

/-- C2: evaluation of the code at the failing input.  The body
`[{"permissions":{"attendance":{"approve":false}}}]` split into two chunks is
not parsed as its concatenation: the first chunk fails to parse, is passed
through re-encoded, the filter disconnects and the second chunk flows through
raw, so the delivered body is the unmutated original — while the same body in
one chunk is parsed and mutated.  No transform runs in the split case. -/
theorem c2_truncation_behavior :
    (mocker "https://api.factorialhr.com/companies"
      [utf8Encode ("[\x7b\"permissions\":\x7b\"attendance\":\x7b\"approve\":fal".data),
       utf8Encode ("se\x7d\x7d\x7d]".data)]).bytes
      = utf8Encode (("[\x7b\"permissions\":\x7b\"attendance\":\x7b\"approve\":fal"
          ++ "se\x7d\x7d\x7d]" : String).data) ∧
    (mocker "https://api.factorialhr.com/companies"
      [utf8Encode ("[\x7b\"permissions\":\x7b\"attendance\":\x7b\"approve\":fal".data),
       utf8Encode ("se\x7d\x7d\x7d]".data)]).transformCalls = 0 ∧
    (mocker "https://api.factorialhr.com/companies"
      [utf8Encode (("[\x7b\"permissions\":\x7b\"attendance\":\x7b\"approve\":fal"
          ++ "se\x7d\x7d\x7d]" : String).data)]).bytes
      = utf8Encode ("[\x7b\"permissions\":\x7b\"attendance\":\x7b\"approve\":true\x7d\x7d\x7d]".data) ∧
    (mocker "https://api.factorialhr.com/companies"
      [utf8Encode ("[\x7b\"permissions\":\x7b\"attendance\":\x7b\"approve\":fal".data),
       utf8Encode ("se\x7d\x7d\x7d]".data)]).bytes
      ≠ (mocker "https://api.factorialhr.com/companies"
      [utf8Encode (("[\x7b\"permissions\":\x7b\"attendance\":\x7b\"approve\":fal"
          ++ "se\x7d\x7d\x7d]" : String).data)]).bytes := by
  refine ⟨by decide, by decide, by decide, by decide⟩

/-- C3: for every URL in the ignored set, no stream filter is opened, no
decode, parse, transform or log step executes, and the bytes flow through
untouched, for every chunk sequence. -/
theorem c3_ignored_untouched (url : String) (h : url ∈ NOT_INTERESTING_URLS)
    (chunks : List (List Nat)) :
    mocker url chunks = ⟨chunks.flatten, [], false, 0, 0, 0⟩ :=
  mocker_ignored url h chunks

/-- Witness for C3 at the teams URL with two chunks. -/
theorem c3_ignored_untouched_witness :
    "https://api.factorialhr.com/teams" ∈ NOT_INTERESTING_URLS ∧
    mocker "https://api.factorialhr.com/teams" [[1, 2], [3]]
      = ⟨[1, 2, 3], [], false, 0, 0, 0⟩ :=
  ⟨by decide, c3_ignored_untouched "https://api.factorialhr.com/teams" (by decide) [[1, 2], [3]]⟩

/-- C4: for the companies endpoint with body
`[{"permissions":{"attendance":{"approve":false}}}]`, the delivered output is
`[{"permissions":{"attendance":{"approve":true}}}]`. -/
theorem c4_companies_scenario :
    (mocker "https://api.factorialhr.com/companies"
      [utf8Encode ("[\x7b\"permissions\":\x7b\"attendance\":\x7b\"approve\":false\x7d\x7d\x7d]".data)]).bytes
      = utf8Encode ("[\x7b\"permissions\":\x7b\"attendance\":\x7b\"approve\":true\x7d\x7d\x7d]".data) := by
  decide

/-- C5 (counterexample): the claim fails as stated.  A matching policy whose
`authorize` flag is the truthy value 1 keeps the value 1 after processing, so
the targeted field does not equal the override value `true`; and a `null`
element aborts `mock_companies` with a `TypeError` before later elements are
processed, so a present `approve` flag after the `null` stays `false`. -/
theorem c5_counterexample :
    propGet (Json.obj [("policy_key", Json.str "contracts.read"),
        ("authorize", Json.int 1)]) "policy_key" = some (Json.str "contracts.read") ∧
    "contracts.read" ∈ MOCK_POLICIES ∧
    propGet (Json.obj [("policy_key", Json.str "contracts.read"),
        ("authorize", Json.int 1)]) "authorize" = some (Json.int 1) ∧
    (mock_authorize_policies (Json.arr [Json.obj [("policy_key",
        Json.str "contracts.read"), ("authorize", Json.int 1)]])).1
      = Json.arr [Json.obj [("policy_key", Json.str "contracts.read"),
        ("authorize", Json.int 1)]] ∧
    Json.int 1 ≠ Json.bool true ∧
    (mock_companies (Json.arr [Json.null, Json.obj [("permissions",
        Json.obj [("attendance", Json.obj [("approve", Json.bool false)])])]])).1
      = Json.arr [Json.null, Json.obj [("permissions",
        Json.obj [("attendance", Json.obj [("approve", Json.bool false)])])]] ∧
    (mock_companies (Json.arr [Json.null, Json.obj [("permissions",
        Json.obj [("attendance", Json.obj [("approve", Json.bool false)])])]])).2.1
      = true :=
  ⟨rfl, by decide, rfl, rfl, fun h => Json.noConfusion h, rfl, rfl⟩

/-- C5 (amended): for every well-formed structured value, each transform
yields a well-formed value that survives serialize-then-parse unchanged,
differs from the input only in its targeted fields, and — when the transform
completes without a JS error — forces each present targeted field: the
companies transform sets the flags to `true` unconditionally, and the policies
transform sets `authorize` to `true` exactly when it was falsy, keeping an
already-truthy value as is. -/
theorem c5_targeted_override_amended (v : Json) (hwf : wfJ v = true) :
    (wfJ (mock_companies v).1 = true ∧
     jsonParseL (stringifyL (mock_companies v).1) = some (mock_companies v).1 ∧
     eraseCompanies (mock_companies v).1 = eraseCompanies v ∧
     ((mock_companies v).2.1 = false → compTargeted v (mock_companies v).1)) ∧
    (wfJ (mock_authorize_policies v).1 = true ∧
     jsonParseL (stringifyL (mock_authorize_policies v).1)
       = some (mock_authorize_policies v).1 ∧
     erasePolicies (mock_authorize_policies v).1 = erasePolicies v ∧
     ((mock_authorize_policies v).2.1 = false →
       polTargeted v (mock_authorize_policies v).1)) := by
  have hwc := wfJ_mock_companies v hwf
  have hwp := wfJ_mock_authorize_policies v hwf
  exact ⟨⟨hwc, jsonParseL_stringifyL _ hwc, eraseCompanies_mock_companies v,
      fun h => compTargeted_mock_companies v h⟩,
    ⟨hwp, jsonParseL_stringifyL _ hwp, erasePolicies_mock_authorize_policies v,
      fun h => polTargeted_mock_authorize_policies v h⟩⟩

/-- Witness for C5 (amended) at a one-company body with a present, falsy
`approve` flag. -/
theorem c5_targeted_override_amended_witness :
    wfJ (Json.arr [Json.obj [("permissions",
      Json.obj [("attendance", Json.obj [("approve", Json.bool false)])])]]) = true ∧
    jsonParseL (stringifyL (mock_companies (Json.arr [Json.obj [("permissions",
      Json.obj [("attendance", Json.obj [("approve", Json.bool false)])])]])).1)
      = some (mock_companies (Json.arr [Json.obj [("permissions",
      Json.obj [("attendance", Json.obj [("approve", Json.bool false)])])]])).1 ∧
    eraseCompanies (mock_companies (Json.arr [Json.obj [("permissions",
      Json.obj [("attendance", Json.obj [("approve", Json.bool false)])])]])).1
      = eraseCompanies (Json.arr [Json.obj [("permissions",
      Json.obj [("attendance", Json.obj [("approve", Json.bool false)])])]]) :=
  ⟨rfl,
    (c5_targeted_override_amended (Json.arr [Json.obj [("permissions",
      Json.obj [("attendance", Json.obj [("approve", Json.bool false)])])]]) rfl).1.2.1,
    (c5_targeted_override_amended (Json.arr [Json.obj [("permissions",
      Json.obj [("attendance", Json.obj [("approve", Json.bool false)])])]]) rfl).1.2.2.1⟩

/-- C6: applying either registered transform twice to a structured value
yields the same resulting value as applying it once. -/
theorem c6_transforms_idempotent (v : Json) :
    (mock_companies (mock_companies v).1).1 = (mock_companies v).1 ∧
    (mock_authorize_policies (mock_authorize_policies v).1).1
      = (mock_authorize_policies v).1 :=
  ⟨mock_companies_idem v, mock_authorize_policies_idem v⟩

/-- C7: for the companies endpoint with body `[{"permissions":{}}]`, the
output is unchanged, no field is mutated and no error is raised. -/
theorem c7_empty_permissions_scenario :
    (mocker "https://api.factorialhr.com/companies"
      [utf8Encode ("[\x7b\"permissions\":\x7b\x7d\x7d]".data)]).bytes
      = utf8Encode ("[\x7b\"permissions\":\x7b\x7d\x7d]".data) ∧
    (mock_companies (Json.arr [Json.obj [("permissions", Json.obj [])]])).1
      = Json.arr [Json.obj [("permissions", Json.obj [])]] ∧
    (mock_companies (Json.arr [Json.obj [("permissions", Json.obj [])]])).2.1
      = false := by
  refine ⟨by decide, rfl, rfl⟩

/-- C8: for every intercepted response, a transform failure never propagates
and never aborts or corrupts delivery: when the dispatched transform throws,
the catch block delivers the decoded text of the first chunk (followed by the
remaining raw chunks — the response as the server sent it); and in every case
the delivered bytes are either that pass-through or the complete serialization
of the transformed value, never a partial body. -/
theorem c8_transform_failure_safe (url : String) (c : List Nat)
    (rest : List (List Nat)) (h : ¬ url ∈ NOT_INTERESTING_URLS) :
    (∀ v, jsonParseL (utf8DecodeStream c) = some v →
      (handle_mocking url v).thrown = true →
      (mocker url (c :: rest)).bytes
        = utf8Encode (utf8DecodeStream c) ++ rest.flatten) ∧
    ((mocker url (c :: rest)).bytes
        = utf8Encode (utf8DecodeStream c) ++ rest.flatten ∨
      ∃ v, jsonParseL (utf8DecodeStream c) = some v ∧
        (handle_mocking url v).thrown = false ∧
        (mocker url (c :: rest)).bytes
          = utf8Encode (stringifyL (handle_mocking url v).value) ++ rest.flatten) := by
  have hc : NOT_INTERESTING_URLS.contains url = false :=
    contains_false_of_not_mem _ _ h
  cases hv : jsonParseL (utf8DecodeStream c) with
  | none =>
      have hm := mocker_unparsed url c rest h hv
      refine ⟨?_, Or.inl (by rw [hm])⟩
      intro v hv2
      cases hv2
  | some v =>
      by_cases hthr : (handle_mocking url v).thrown = true
      · have hm : mocker url (c :: rest)
            = ⟨utf8Encode (utf8DecodeStream c) ++ rest.flatten,
               (handle_mocking url v).logs, true, 1, 1,
               if (handle_mocking url v).invoked = true then 1 else 0⟩ := by
          unfold mocker
          rw [hc]
          simp only [Bool.false_eq_true, if_false]
          rw [hv]
          simp [hthr]
        refine ⟨?_, Or.inl (by rw [hm])⟩
        intro v2 hv2 _
        injection hv2 with he
        subst he
        rw [hm]
      · have hthr' : (handle_mocking url v).thrown = false := by simpa using hthr
        have hm : mocker url (c :: rest)
            = ⟨utf8Encode (stringifyL (handle_mocking url v).value) ++ rest.flatten,
               (handle_mocking url v).logs, true, 1, 1,
               if (handle_mocking url v).invoked = true then 1 else 0⟩ := by
          unfold mocker
          rw [hc]
          simp only [Bool.false_eq_true, if_false]
          rw [hv]
          simp [hthr']
        refine ⟨?_, Or.inr ⟨v, rfl, hthr', by rw [hm]⟩⟩
        intro v2 hv2 hthr2
        injection hv2 with he
        subst he
        rw [hthr'] at hthr2
        cases hthr2

/-- Witness for C8: the body `[null]` makes `mock_companies` throw a
`TypeError`, and the delivered bytes are still the original body. -/
theorem c8_transform_failure_safe_witness :
    ¬ "https://api.factorialhr.com/companies" ∈ NOT_INTERESTING_URLS ∧
    jsonParseL (utf8DecodeStream (utf8Encode ("[null]".data)))
      = some (Json.arr [Json.null]) ∧
    (handle_mocking "https://api.factorialhr.com/companies"
      (Json.arr [Json.null])).thrown = true ∧
    (mocker "https://api.factorialhr.com/companies"
      [utf8Encode ("[null]".data)]).bytes
      = utf8Encode (utf8DecodeStream (utf8Encode ("[null]".data)))
        ++ List.flatten ([] : List (List Nat)) :=
  ⟨by decide, rfl, rfl,
    (c8_transform_failure_safe "https://api.factorialhr.com/companies"
      (utf8Encode ("[null]".data)) [] (by decide)).1 (Json.arr [Json.null]) rfl rfl⟩

/-- C9: for every URL in neither configured set, the body `{"x":1}` is
delivered byte-identical to the input, with exactly one diagnostic record
containing the address and the body, and no transform invoked. -/
theorem c9_unknown_scenario (url : String)
    (h1 : ¬ url ∈ INTERESTING_URLS) (h2 : ¬ url ∈ NOT_INTERESTING_URLS) :
    mocker url [utf8Encode ("\x7b\"x\":1\x7d".data)]
      = ⟨utf8Encode ("\x7b\"x\":1\x7d".data),
         [.noMocker url (Json.obj [("x", Json.int 1)])], true, 1, 1, 0⟩ := by
  rw [mocker_unknown_parsed url (utf8Encode ("\x7b\"x\":1\x7d".data)) []
    (Json.obj [("x", Json.int 1)]) h1 h2 rfl]
  congr 1

/-- Witness for C9 at a URL that is in neither configured set. -/
theorem c9_unknown_scenario_witness :
    ¬ "https://api.factorialhr.com/employees" ∈ INTERESTING_URLS ∧
    ¬ "https://api.factorialhr.com/employees" ∈ NOT_INTERESTING_URLS ∧
    mocker "https://api.factorialhr.com/employees"
      [utf8Encode ("\x7b\"x\":1\x7d".data)]
      = ⟨utf8Encode ("\x7b\"x\":1\x7d".data),
         [.noMocker "https://api.factorialhr.com/employees"
           (Json.obj [("x", Json.int 1)])], true, 1, 1, 0⟩ :=
  ⟨by decide, by decide,
    c9_unknown_scenario "https://api.factorialhr.com/employees" (by decide) (by decide)⟩

/-- C10: classification and dispatch compare the full URL by exact string
equality: every URL outside both configured lists is treated as unknown — its
body is decoded and parsed, a diagnostic record is logged on a parse success,
and the value is never mutated (the re-encoded output serializes the parsed
value itself); on a parse failure the decoded text passes through. -/
theorem c10_exact_url_match (url : String) (c : List Nat) (rest : List (List Nat))
    (h1 : ¬ url ∈ INTERESTING_URLS) (h2 : ¬ url ∈ NOT_INTERESTING_URLS) :
    (jsonParseL (utf8DecodeStream c) = none →
      mocker url (c :: rest)
        = ⟨utf8Encode (utf8DecodeStream c) ++ rest.flatten, [], true, 1, 1, 0⟩) ∧
    (∀ v, jsonParseL (utf8DecodeStream c) = some v →
      mocker url (c :: rest)
        = ⟨utf8Encode (stringifyL v) ++ rest.flatten,
           [.noMocker url v], true, 1, 1, 0⟩) :=
  ⟨fun hv => mocker_unparsed url c rest h2 hv,
   fun v hv => mocker_unknown_parsed url c rest v h1 h2 hv⟩

/-- Witness for C10: the companies URL with a query string appended is
unknown, so its body is logged but not mutated. -/
theorem c10_exact_url_match_witness :
    ¬ "https://api.factorialhr.com/companies?page=1" ∈ INTERESTING_URLS ∧
    ¬ "https://api.factorialhr.com/companies?page=1" ∈ NOT_INTERESTING_URLS ∧
    jsonParseL (utf8DecodeStream (utf8Encode
      ("[\x7b\"permissions\":\x7b\"attendance\":\x7b\"approve\":false\x7d\x7d\x7d]".data)))
      = some (Json.arr [Json.obj [("permissions", Json.obj [("attendance",
          Json.obj [("approve", Json.bool false)])])]]) ∧
    mocker "https://api.factorialhr.com/companies?page=1"
      [utf8Encode ("[\x7b\"permissions\":\x7b\"attendance\":\x7b\"approve\":false\x7d\x7d\x7d]".data)]
      = ⟨utf8Encode ("[\x7b\"permissions\":\x7b\"attendance\":\x7b\"approve\":false\x7d\x7d\x7d]".data),
         [.noMocker "https://api.factorialhr.com/companies?page=1"
           (Json.arr [Json.obj [("permissions", Json.obj [("attendance",
             Json.obj [("approve", Json.bool false)])])]])], true, 1, 1, 0⟩ := by
  refine ⟨by decide, by decide, rfl, ?_⟩
  rw [(c10_exact_url_match "https://api.factorialhr.com/companies?page=1"
    (utf8Encode ("[\x7b\"permissions\":\x7b\"attendance\":\x7b\"approve\":false\x7d\x7d\x7d]".data))
    [] (by decide) (by decide)).2
    (Json.arr [Json.obj [("permissions", Json.obj [("attendance",
      Json.obj [("approve", Json.bool false)])])]]) rfl]
  congr 1
